import Mathlib

/-!
# Earth (hw4.cpp): icosphere generation and the per-frame state update

A shallow embedding of `src/hw4.cpp`.

* `float`/`double` values are modelled as elements of a linearly ordered field `K`
  (every finite floating-point value is a rational number), with exact arithmetic.
  The square root used by `glm::normalize`, and `std::cos`/`std::sin`,
  are parameters of the definitions, so that the definitions stay executable
  (for instance over `ℚ`) and the theorems hold for every such function.
* Where rounding decides a property (whether the camera distance can reach 1), the
  update is modelled a second time, `update_f32`, over the rationals with every
  `float` operation rounded to binary32.
* `std::vector` is `List`, `std::array<glm::vec3, 3>` is the structure `Face`.
* The body of the `while (running)` loop of `main` is the function `frame`; the
  OpenGL and SDL calls that matter for the properties are recorded in a log.
-/

namespace Earth

/-! ## glm::vec3 -/

/-- A `glm::vec3`: three scalar components. -/
structure Vec3 (K : Type) where
  x : K
  y : K
  z : K
deriving DecidableEq, Repr

namespace Vec3

variable {K : Type} [LinearOrderedField K]

/-- Componentwise sum, `a + b` on `glm::vec3`. -/
def add (a b : Vec3 K) : Vec3 K := ⟨a.x + b.x, a.y + b.y, a.z + b.z⟩

/-- Division by a scalar, `a / s` on `glm::vec3`. -/
def divScalar (a : Vec3 K) (s : K) : Vec3 K := ⟨a.x / s, a.y / s, a.z / s⟩

/-- Multiplication by a scalar, `a * s` on `glm::vec3`. -/
def mulScalar (a : Vec3 K) (s : K) : Vec3 K := ⟨a.x * s, a.y * s, a.z * s⟩

/-- The scalar product `glm::dot`. -/
def dot (a b : Vec3 K) : K := a.x * b.x + a.y * b.y + a.z * b.z

/-- The Euclidean norm `glm::length`, for a given square-root function. -/
def length (sqrt : K → K) (a : Vec3 K) : K := sqrt (dot a a)

/-- The library function `glm::normalize`: the vector times the inverse square
root of its scalar square, that is, the vector divided by its Euclidean norm. -/
def normalize (sqrt : K → K) (a : Vec3 K) : Vec3 K := mulScalar a (1 / sqrt (dot a a))

end Vec3

/-- A face of the mesh, `std::array<glm::vec3, 3>`. -/
structure Face (K : Type) where
  v0 : Vec3 K
  v1 : Vec3 K
  v2 : Vec3 K
deriving DecidableEq, Repr

section Sphere

variable {K : Type} [LinearOrderedField K]

/-- The twelve vertices of the regular icosahedron, as written in `generate_sphere`. -/
def icosahedronVertices : List (Vec3 K) :=
  [ ⟨0.8506508, 0.5257311, 0⟩,
    ⟨0.000000101405476, 0.8506507, -0.525731⟩,
    ⟨0.000000101405476, 0.8506506, 0.525731⟩,
    ⟨0.5257309, -0.00000006267203, -0.85065067⟩,
    ⟨0.52573115, -0.00000006267203, 0.85065067⟩,
    ⟨0.8506508, -0.5257311, 0⟩,
    ⟨-0.52573115, 0.00000006267203, -0.85065067⟩,
    ⟨-0.8506508, 0.5257311, 0⟩,
    ⟨-0.5257309, 0.00000006267203, 0.85065067⟩,
    ⟨-0.000000101405476, -0.8506506, -0.525731⟩,
    ⟨-0.000000101405476, -0.8506507, 0.525731⟩,
    ⟨-0.8506508, -0.5257311, 0⟩ ]

/-- The index list `indices` of `generate_sphere`: twenty triples. -/
def indices : List Nat :=
  [ 0, 1, 2,
    0, 3, 1,
    0, 2, 4,
    3, 0, 5,
    0, 4, 5,
    1, 3, 6,
    1, 7, 2,
    7, 1, 6,
    4, 2, 8,
    7, 8, 2,
    9, 3, 5,
    6, 3, 9,
    5, 4, 10,
    4, 8, 10,
    9, 5, 10,
    7, 6, 11,
    7, 11, 8,
    11, 6, 9,
    8, 11, 10,
    10, 11, 9 ]

/-- The element `vertices[i]`; the indices of the table are all in range. -/
def vertexAt (vertices : List (Vec3 K)) (i : Nat) : Vec3 K :=
  vertices.getD i ⟨0, 0, 0⟩

/-- The loop `for (i = 0; i + 3 <= indices.size(); i += 3) faces.push_back(...)`:
consumes the index list three entries at a time. -/
def buildFaces (vertices : List (Vec3 K)) : List Nat → List (Face K)
  | i0 :: i1 :: i2 :: rest =>
      ⟨vertexAt vertices i0, vertexAt vertices i1, vertexAt vertices i2⟩ ::
        buildFaces vertices rest
  | _ => []

/-- The faces of the normalised icosahedron, before any subdivision. -/
def baseFaces (sqrt : K → K) : List (Face K) :=
  buildFaces (icosahedronVertices.map (Vec3.normalize sqrt)) indices

/-- The midpoint of an edge pushed back onto the sphere,
`glm::normalize((a + b) / 2.f)`. -/
def midpoint (sqrt : K → K) (a b : Vec3 K) : Vec3 K :=
  Vec3.normalize sqrt (Vec3.divScalar (Vec3.add a b) 2)

/-- The four faces pushed for one face by the body of the inner loop. -/
def subdivideFace (sqrt : K → K) (f : Face K) : List (Face K) :=
  let v3 := midpoint sqrt f.v0 f.v1
  let v4 := midpoint sqrt f.v1 f.v2
  let v5 := midpoint sqrt f.v0 f.v2
  [⟨f.v0, v3, v5⟩, ⟨v3, f.v1, v4⟩, ⟨v5, v4, f.v2⟩, ⟨v3, v4, v5⟩]

/-- One pass of the inner loop `for (auto [v0, v1, v2] : faces)`, building `next_faces`. -/
def subdivide (sqrt : K → K) : List (Face K) → List (Face K)
  | [] => []
  | f :: rest => subdivideFace sqrt f ++ subdivide sqrt rest

/-- The outer loop `for (iter = 0; iter < subdivisions_num; ++iter)`. -/
def subdivisionLoop (sqrt : K → K) : Nat → List (Face K) → List (Face K)
  | 0, faces => faces
  | n + 1, faces => subdivisionLoop sqrt n (subdivide sqrt faces)

/-- The final loop: the three vertices of every face, in order. -/
def flatten : List (Face K) → List (Vec3 K)
  | [] => []
  | f :: rest => f.v0 :: f.v1 :: f.v2 :: flatten rest

/-- The faces held by `generate_sphere` after its subdivision loop. -/
def sphereFaces (sqrt : K → K) (subdivisions_num : Nat) : List (Face K) :=
  subdivisionLoop sqrt subdivisions_num (baseFaces sqrt)

/-- The function `generate_sphere`: `vertices` is the in-out vector (its contents on
entry are overwritten by the table), the result is its contents on return. -/
def generate_sphere (sqrt : K → K) (vertices : List (Vec3 K)) (subdivisions_num : Nat) :
    List (Vec3 K) :=
  let _overwritten := vertices
  flatten (sphereFaces sqrt subdivisions_num)

/-- Triangle `k` of a flat vertex sequence: the vertices at `3k`, `3k+1`, `3k+2`. -/
def triangle (vs : List (Vec3 K)) (k : Nat) : Option (Face K) :=
  match vs.get? (3 * k), vs.get? (3 * k + 1), vs.get? (3 * k + 2) with
  | some a, some b, some c => some ⟨a, b, c⟩
  | _, _, _ => none

/-- The faces of a flat vertex sequence, three vertices at a time. -/
def toFaces : List (Vec3 K) → List (Face K)
  | a :: b :: c :: rest => ⟨a, b, c⟩ :: toFaces rest
  | _ => []

end Sphere

/-! ## The frame loop of `main` -/

/-- An `SDL_Keycode` (a 32-bit signed integer in SDL). -/
abbrev SDL_Keycode := Int

/-- SDL's key code of the space bar. -/
def SDLK_SPACE : SDL_Keycode := 32
/-- SDL's key code of the key `a`. -/
def SDLK_a : SDL_Keycode := 97
/-- SDL's key code of the key `d`. -/
def SDLK_d : SDL_Keycode := 100
/-- SDL's key code of the key `s`. -/
def SDLK_s : SDL_Keycode := 115
/-- SDL's key code of the key `w`. -/
def SDLK_w : SDL_Keycode := 119
/-- SDL's key code of the down arrow, scancode 81 with bit 30 set. -/
def SDLK_DOWN : SDL_Keycode := 1073741905
/-- SDL's key code of the up arrow, scancode 82 with bit 30 set. -/
def SDLK_UP : SDL_Keycode := 1073741906

/-- SDL's identifier of the window event "resized". -/
def SDL_WINDOWEVENT_RESIZED : Nat := 5

/-- What `SDL_PollEvent` can deliver, as far as the `switch` of the loop tells events
apart: `window` carries `event.window.event`, `data1` and `data2`. -/
inductive SDL_Event where
  | quit
  | window (event : Nat) (data1 data2 : Int)
  | keydown (sym : SDL_Keycode)
  | keyup (sym : SDL_Keycode)
  | other
deriving DecidableEq, Repr

/-- The framebuffer a pass draws into. -/
inductive Target where
  | hdr_fbo
  | screen
deriving DecidableEq, Repr

/-- The OpenGL and SDL calls of the loop that the log keeps. -/
inductive Call (K : Type) where
  | texImage2D (width height : Int)
  | renderbufferStorage (width height : Int)
  | checkFramebufferStatus
  | bindFramebuffer (target : Target)
  | viewport (width height : Int)
  | clear
  | uniformSunPos (pos : Vec3 K)
  | drawArrays (count : Nat)
  | swapWindow
deriving DecidableEq, Repr

/-- The variables of `main` that the loop reads and writes, the allocated sizes of the
two HDR attachments, and the log of calls issued so far. -/
structure State (K : Type) where
  width : Int
  height : Int
  hdr_buffer_size : Int × Int
  hdr_rbo_size : Int × Int
  time : K
  paused : Bool
  view_angle : K
  camera_distance : K
  camera_rotation : K
  button_down : SDL_Keycode → Bool
  running : Bool
  calls : List (Call K)

section Loop

variable {K : Type} [LinearOrderedField K]

/-- The lambda `resize_hdr_buffers`: reallocates the colour texture and the depth
renderbuffer at the stored window size, then asserts framebuffer completeness.
`complete` is the driver's answer for given colour and depth storage sizes; a failed
assertion aborts the program (`none`). -/
def resize_hdr_buffers (complete : Int × Int → Int × Int → Bool) (s : State K) :
    Option (State K) :=
  let s1 := { s with hdr_buffer_size := (s.width, s.height),
                     calls := s.calls ++ [Call.texImage2D s.width s.height] }
  let s2 := { s1 with hdr_rbo_size := (s1.width, s1.height),
                      calls := s1.calls ++ [Call.renderbufferStorage s1.width s1.height] }
  let s3 := { s2 with calls := s2.calls ++ [Call.bindFramebuffer Target.hdr_fbo,
                                            Call.checkFramebufferStatus] }
  if complete s3.hdr_buffer_size s3.hdr_rbo_size then some s3 else none

/-- The variables of `main` as initialised before the first call of
`resize_hdr_buffers`; `width` and `height` are what `SDL_GetWindowSize` reported, `pi`
is `glm::pi<float>()`. No storage is allocated yet for the HDR attachments. -/
def startState (pi : K) (width height : Int) : State K :=
  { width := width, height := height,
    hdr_buffer_size := (0, 0), hdr_rbo_size := (0, 0),
    time := 0, paused := false,
    view_angle := pi / 12, camera_distance := 2.5, camera_rotation := 0,
    button_down := fun _ => false,
    running := true, calls := [] }

/-- The state of `main` on entry to the loop, after the call `resize_hdr_buffers()`
that precedes it. -/
def initialState (complete : Int × Int → Int × Int → Bool) (pi : K) (width height : Int) :
    Option (State K) :=
  resize_hdr_buffers complete (startState pi width height)

/-- The assignment `button_down[sym] = value`. -/
def setKey (button_down : SDL_Keycode → Bool) (sym : SDL_Keycode) (value : Bool) :
    SDL_Keycode → Bool :=
  fun k => if k = sym then value else button_down k

/-- The `switch (event.type)` of the event loop, for one event. The `break` after
`running = false` leaves the `switch`, not the `for` loop. -/
def handleEvent (complete : Int × Int → Int × Int → Bool) (s : State K) :
    SDL_Event → Option (State K)
  | SDL_Event.quit => some { s with running := false }
  | SDL_Event.window event data1 data2 =>
      if event = SDL_WINDOWEVENT_RESIZED then
        resize_hdr_buffers complete { s with width := data1, height := data2 }
      else some s
  | SDL_Event.keydown sym =>
      let s1 := { s with button_down := setKey s.button_down sym true }
      if sym = SDLK_SPACE then some { s1 with paused := !s1.paused } else some s1
  | SDL_Event.keyup sym => some { s with button_down := setKey s.button_down sym false }
  | SDL_Event.other => some s

/-- The loop `for (SDL_Event event; SDL_PollEvent(&event);)` over the events queued
for this frame. -/
def pollEvents (complete : Int × Int → Int × Int → Bool) (s : State K) :
    List SDL_Event → Option (State K)
  | [] => some s
  | e :: rest =>
      match handleEvent complete s e with
      | none => none
      | some s1 => pollEvents complete s1 rest

/-- The time and camera update of a frame, from `if (!paused) time += dt;` to the
last key test; `dt` is the measured frame time. -/
def update (s : State K) (dt : K) : State K :=
  let time := if !s.paused then s.time + dt else s.time
  let camera_speed := min (s.camera_distance - 1) 3
  let camera_distance := s.camera_distance
  let camera_distance :=
    if s.button_down SDLK_UP then camera_distance - min camera_speed 3 * dt
    else camera_distance
  let camera_distance :=
    if s.button_down SDLK_DOWN then camera_distance + min camera_speed 3 * dt
    else camera_distance
  let camera_rotation := s.camera_rotation
  let camera_rotation :=
    if s.button_down SDLK_a then camera_rotation + min camera_speed 2 * dt
    else camera_rotation
  let camera_rotation :=
    if s.button_down SDLK_d then camera_rotation - min camera_speed 2 * dt
    else camera_rotation
  let view_angle := s.view_angle
  let view_angle :=
    if s.button_down SDLK_w then view_angle + min camera_speed 2 * dt
    else view_angle
  let view_angle :=
    if s.button_down SDLK_s then view_angle - min camera_speed 2 * dt
    else view_angle
  { s with time := time, camera_distance := camera_distance,
           camera_rotation := camera_rotation, view_angle := view_angle }

/-- Rounding towards zero. -/
def trunc [FloorRing K] (q : K) : Int := if 0 ≤ q then ⌊q⌋ else ⌈q⌉

/-- The library function `std::fmod`: `x - n * y` with `n` the quotient `x / y`
rounded towards zero. -/
def fmod [FloorRing K] (x y : K) : K := x - (trunc (x / y) : K) * y

/-- The local `sun_angle = std::fmod(time, 2 * M_PI)`. -/
def sun_angle [FloorRing K] (M_PI : K) (time : K) : K := fmod time (2 * M_PI)

/-- The local `sun_pos(std::cos(sun_angle), 0.f, std::sin(sun_angle))`. -/
def sun_pos [FloorRing K] (M_PI : K) (cos sin : K → K) (time : K) : Vec3 K :=
  ⟨cos (sun_angle M_PI time), 0, sin (sun_angle M_PI time)⟩

/-- The two passes and the buffer swap that end a frame. -/
def render [FloorRing K] (M_PI : K) (cos sin : K → K) (earth_vertices_count : Nat)
    (s : State K) : State K :=
  { s with calls := s.calls ++
      [ Call.bindFramebuffer Target.hdr_fbo,
        Call.viewport s.width s.height,
        Call.clear,
        Call.uniformSunPos (sun_pos M_PI cos sin s.time),
        Call.drawArrays earth_vertices_count,
        Call.bindFramebuffer Target.screen,
        Call.clear,
        Call.drawArrays 6,
        Call.swapWindow ] }

/-- One iteration of `while (running)`: drain the events, leave if `running` was
cleared, otherwise update and render. `none` is an abort on a failed assertion. -/
def frame [FloorRing K] (complete : Int × Int → Int × Int → Bool) (M_PI : K)
    (cos sin : K → K) (earth_vertices_count : Nat)
    (s : State K) (events : List SDL_Event) (dt : K) : Option (State K) :=
  match pollEvents complete s events with
  | none => none
  | some s1 =>
      if !s1.running then some s1
      else some (render M_PI cos sin earth_vertices_count (update s1 dt))

/-- The loop `while (running)`, given for every iteration the events queued for it and
the frame time measured in it; it is left after the first frame that clears `running`.
`none` is an abort on a failed assertion. -/
def runFrames [FloorRing K] (complete : Int × Int → Int × Int → Bool) (M_PI : K)
    (cos sin : K → K) (earth_vertices_count : Nat) (s : State K) :
    List (List SDL_Event × K) → Option (State K)
  | [] => some s
  | (events, dt) :: rest =>
      match frame complete M_PI cos sin earth_vertices_count s events dt with
      | none => none
      | some s1 =>
          if !s1.running then some s1
          else runFrames complete M_PI cos sin earth_vertices_count s1 rest

/-- The dimensions carried by the last resize event of a queue, if there is one. -/
def lastResize : List SDL_Event → Option (Int × Int)
  | [] => none
  | SDL_Event.window event data1 data2 :: rest =>
      match lastResize rest with
      | some d => some d
      | none => if event = SDL_WINDOWEVENT_RESIZED then some (data1, data2) else none
  | _ :: rest => lastResize rest

/-- The dimensions of all resize events of a queue, in order. -/
def resizes : List SDL_Event → List (Int × Int)
  | [] => []
  | SDL_Event.window event data1 data2 :: rest =>
      if event = SDL_WINDOWEVENT_RESIZED then (data1, data2) :: resizes rest
      else resizes rest
  | _ :: rest => resizes rest

/-- A held-key set with the key `sym` held and every other key released. -/
def onlyHeld (sym : SDL_Keycode) : SDL_Keycode → Bool := fun k => decide (k = sym)

/-- The calls of one `resize_hdr_buffers()` at the dimensions `d`. -/
def reallocCalls (d : Int × Int) : List (Call K) :=
  [ Call.texImage2D d.1 d.2, Call.renderbufferStorage d.1 d.2,
    Call.bindFramebuffer Target.hdr_fbo, Call.checkFramebufferStatus ]

/-- The calls of the reallocations of a list of dimensions, in order. -/
def reallocCallsAll : List (Int × Int) → List (Call K)
  | [] => []
  | d :: rest => reallocCalls d ++ reallocCallsAll rest

/-- Both HDR attachments have storage of the stored window size. -/
def State.Sized (s : State K) : Prop :=
  s.hdr_buffer_size = (s.width, s.height) ∧ s.hdr_rbo_size = (s.width, s.height)

/-- The calls of the two passes and the buffer swap, as `render` issues them at window
size `width` by `height` with the sun at `pos`. -/
def renderCalls (width height : Int) (pos : Vec3 K) (earth_vertices_count : Nat) :
    List (Call K) :=
  [ Call.bindFramebuffer Target.hdr_fbo, Call.viewport width height, Call.clear,
    Call.uniformSunPos pos, Call.drawArrays earth_vertices_count,
    Call.bindFramebuffer Target.screen, Call.clear, Call.drawArrays 6, Call.swapWindow ]

/-- Clearing `running`, what the case `SDL_QUIT` does. -/
def State.stop (s : State K) : State K := { s with running := false }

/-- A call that draws or presents. -/
def Call.isDrawOrPresent : Call K → Bool
  | Call.drawArrays _ => true
  | Call.swapWindow => true
  | _ => false

/-- A rational state with an 800 by 600 window, at distance 2.5, not paused, with only
the key `sym` held; used to evaluate the update on a concrete input. -/
def heldState (sym : SDL_Keycode) : State ℚ :=
  { startState (3.14159265358979323846 : ℚ) 800 600 with button_down := onlyHeld sym }

end Loop

section Invariant

variable {K : Type} [LinearOrderedField K]

/-- A face whose three vertices have scalar square 1 and pairwise positive scalar
products: the invariant the subdivision keeps. -/
def Face.Proper (f : Face K) : Prop :=
  Vec3.dot f.v0 f.v0 = 1 ∧ Vec3.dot f.v1 f.v1 = 1 ∧ Vec3.dot f.v2 f.v2 = 1 ∧
  0 < Vec3.dot f.v0 f.v1 ∧ 0 < Vec3.dot f.v1 f.v2 ∧ 0 < Vec3.dot f.v0 f.v2

/-- Three vectors, none zero, with pairwise positive scalar products. -/
def Face.RawProper (f : Face K) : Prop :=
  0 < Vec3.dot f.v0 f.v0 ∧ 0 < Vec3.dot f.v1 f.v1 ∧ 0 < Vec3.dot f.v2 f.v2 ∧
  0 < Vec3.dot f.v0 f.v1 ∧ 0 < Vec3.dot f.v1 f.v2 ∧ 0 < Vec3.dot f.v0 f.v2

/-- The vector product `a × b`. -/
def Vec3.cross (a b : Vec3 K) : Vec3 K :=
  ⟨a.y * b.z - a.z * b.y, a.z * b.x - a.x * b.z, a.x * b.y - a.y * b.x⟩

/-- The scalar triple product `a · (b × c)`. -/
def Vec3.triple (a b c : Vec3 K) : K := Vec3.dot a (Vec3.cross b c)

/-- The scalar triple product `v0 · (v1 × v2)` of a face; it is positive when the face
is wound counter-clockwise seen from outside the sphere. -/
def Face.winding (f : Face K) : K := Vec3.triple f.v0 f.v1 f.v2

end Invariant

/-! ## The camera update in `float` arithmetic

The values of a `float` are rational numbers; every arithmetic operation on `float`s
returns the exact result rounded to the nearest value of the format, ties to the value
with even significand (IEEE 754 binary32, the default rounding). Results beyond the
largest finite value (overflow to infinity) are outside this model: the exponent of
`roundF32` is not bounded above. -/

section Float32

/-- The integer nearest to `r`; half way between two integers, the even one. -/
def roundHalfEven (r : ℚ) : ℤ :=
  if r - ⌊r⌋ < 1 / 2 then ⌊r⌋
  else if 1 / 2 < r - ⌊r⌋ then ⌊r⌋ + 1
  else if ⌊r⌋ % 2 = 0 then ⌊r⌋ else ⌊r⌋ + 1

/-- The exponent of the spacing of binary32 values around `x`: 23 below the exponent
of the binade of `x`, and `-149` throughout the subnormal range. -/
def quantumExp (x : ℚ) : ℤ := max (Int.log 2 |x|) (-126) - 23

/-- Rounding to binary32: the multiple of the spacing around `x` nearest to `x`, ties
to even. -/
def roundF32 (x : ℚ) : ℚ :=
  (roundHalfEven (x / 2 ^ quantumExp x) : ℚ) * 2 ^ quantumExp x

/-- The time and camera update of a frame, from `if (!paused) time += dt;` to the last
key test, with every `float` addition, subtraction and multiplication rounded to
binary32; `std::min` is exact. -/
def update_f32 (s : State ℚ) (dt : ℚ) : State ℚ :=
  let time := if !s.paused then roundF32 (s.time + dt) else s.time
  let camera_speed := min (roundF32 (s.camera_distance - 1)) 3
  let camera_distance := s.camera_distance
  let camera_distance :=
    if s.button_down SDLK_UP then
      roundF32 (camera_distance - roundF32 (min camera_speed 3 * dt))
    else camera_distance
  let camera_distance :=
    if s.button_down SDLK_DOWN then
      roundF32 (camera_distance + roundF32 (min camera_speed 3 * dt))
    else camera_distance
  let camera_rotation := s.camera_rotation
  let camera_rotation :=
    if s.button_down SDLK_a then
      roundF32 (camera_rotation + roundF32 (min camera_speed 2 * dt))
    else camera_rotation
  let camera_rotation :=
    if s.button_down SDLK_d then
      roundF32 (camera_rotation - roundF32 (min camera_speed 2 * dt))
    else camera_rotation
  let view_angle := s.view_angle
  let view_angle :=
    if s.button_down SDLK_w then
      roundF32 (view_angle + roundF32 (min camera_speed 2 * dt))
    else view_angle
  let view_angle :=
    if s.button_down SDLK_s then
      roundF32 (view_angle - roundF32 (min camera_speed 2 * dt))
    else view_angle
  { s with time := time, camera_distance := camera_distance,
           camera_rotation := camera_rotation, view_angle := view_angle }

end Float32

end Earth

/-! ## Lemmas on the shape of the mesh -/

namespace Earth

section SphereLemmas

variable {K : Type} [LinearOrderedField K]

theorem length_subdivide (sqrt : K → K) (fs : List (Face K)) :
    (subdivide sqrt fs).length = 4 * fs.length := by
  induction fs with
  | nil => rfl
  | cons f rest ih => simp [subdivide, subdivideFace, ih]; omega

theorem length_subdivisionLoop (sqrt : K → K) (n : Nat) (fs : List (Face K)) :
    (subdivisionLoop sqrt n fs).length = 4 ^ n * fs.length := by
  induction n generalizing fs with
  | zero => simp [subdivisionLoop]
  | succ n ih => rw [subdivisionLoop, ih, length_subdivide, pow_succ]; ring

theorem length_flatten (fs : List (Face K)) : (flatten fs).length = 3 * fs.length := by
  induction fs with
  | nil => rfl
  | cons f rest ih => simp [flatten, ih]; omega

theorem length_baseFaces (sqrt : K → K) : (baseFaces sqrt).length = 20 := rfl

theorem length_sphereFaces (sqrt : K → K) (n : Nat) :
    (sphereFaces sqrt n).length = 20 * 4 ^ n := by
  rw [sphereFaces, length_subdivisionLoop, length_baseFaces]; ring

theorem subdivisionLoop_succ (sqrt : K → K) (n : Nat) (fs : List (Face K)) :
    subdivisionLoop sqrt (n + 1) fs = subdivide sqrt (subdivisionLoop sqrt n fs) := by
  induction n generalizing fs with
  | zero => rfl
  | succ n ih => rw [subdivisionLoop, ih]; rfl

theorem sphereFaces_succ (sqrt : K → K) (n : Nat) :
    sphereFaces sqrt (n + 1) = subdivide sqrt (sphereFaces sqrt n) :=
  subdivisionLoop_succ sqrt n (baseFaces sqrt)

theorem triangle_cons (a b c : Vec3 K) (vs : List (Vec3 K)) (k : Nat) :
    triangle (a :: b :: c :: vs) (k + 1) = triangle vs k := by
  unfold triangle
  rw [show 3 * (k + 1) + 1 = (3 * k + 1) + 3 from by ring,
    show 3 * (k + 1) + 2 = (3 * k + 2) + 3 from by ring,
    show 3 * (k + 1) = 3 * k + 3 from by ring]
  rfl

theorem triangle_flatten (fs : List (Face K)) (k : Nat) :
    triangle (flatten fs) k = fs.get? k := by
  induction fs generalizing k with
  | nil => simp [flatten, triangle]
  | cons f rest ih =>
    cases k with
    | zero => simp [flatten, triangle]
    | succ k => rw [flatten, triangle_cons, ih]; rfl

theorem toFaces_flatten (fs : List (Face K)) : toFaces (flatten fs) = fs := by
  induction fs with
  | nil => rfl
  | cons f rest ih => simp [flatten, toFaces, ih]

theorem get?_subdivide (sqrt : K → K) (fs : List (Face K)) (k i : Nat) (hi : i < 4) :
    (subdivide sqrt fs).get? (4 * k + i) =
      (fs.get? k).bind (fun f => (subdivideFace sqrt f).get? i) := by
  induction fs generalizing k with
  | nil => simp [subdivide]
  | cons f rest ih =>
    have hlen : (subdivideFace sqrt f).length = 4 := rfl
    cases k with
    | zero =>
      simp only [subdivide, Nat.mul_zero, Nat.zero_add, List.get?_cons_zero, Option.some_bind]
      rw [List.get?_eq_getElem?, List.get?_eq_getElem?, List.getElem?_append_left (by omega)]
    | succ k =>
      simp only [subdivide, List.get?_cons_succ]
      rw [← ih k]
      rw [List.get?_eq_getElem?, List.get?_eq_getElem?, List.getElem?_append_right (by omega)]
      congr 1
      omega

theorem mem_subdivide (sqrt : K → K) (fs : List (Face K)) (g : Face K) :
    g ∈ subdivide sqrt fs ↔ ∃ f ∈ fs, g ∈ subdivideFace sqrt f := by
  induction fs with
  | nil => simp [subdivide]
  | cons f rest ih => simp [subdivide, ih]

theorem mem_flatten (fs : List (Face K)) (v : Vec3 K) :
    v ∈ flatten fs ↔ ∃ f ∈ fs, v = f.v0 ∨ v = f.v1 ∨ v = f.v2 := by
  induction fs with
  | nil => simp [flatten]
  | cons f rest ih => simp [flatten, ih, or_assoc]

/-- C1: for every subdivision count `n`, and whatever the vector held on entry,
`generate_sphere` returns exactly `60 * 4^n` vertices, which are `20 * 4^n` triangles of
three vertices each; the result does not depend on the previous contents. -/
theorem generate_sphere_length (sqrt : K → K) (vertices : List (Vec3 K)) (n : Nat) :
    (generate_sphere sqrt vertices n).length = 60 * 4 ^ n ∧
    (toFaces (generate_sphere sqrt vertices n)).length = 20 * 4 ^ n ∧
    (generate_sphere sqrt vertices n).length =
      3 * (toFaces (generate_sphere sqrt vertices n)).length ∧
    generate_sphere sqrt vertices n = generate_sphere sqrt [] n := by
  simp only [generate_sphere, toFaces_flatten, length_flatten, length_sphereFaces]
  refine ⟨by ring, trivial, trivial, trivial⟩

/-- C3: with no subdivision `generate_sphere` returns 60 vertices, 20 triangles; the
vertex at position `3k+j` is the normalised table entry selected by entry `3k+j` of the
index list, and every index of the list is below 12, the length of the table. -/
theorem generate_sphere_zero (sqrt : K → K) (vertices : List (Vec3 K)) :
    (generate_sphere sqrt vertices 0).length = 60 ∧
    (toFaces (generate_sphere sqrt vertices 0)).length = 20 ∧
    (∀ (k : Fin 20) (j : Fin 3), ∃ i v,
      indices.get? (3 * k.val + j.val) = some i ∧
      (icosahedronVertices : List (Vec3 K)).get? i = some v ∧
      (generate_sphere sqrt vertices 0).get? (3 * k.val + j.val) =
        some (Vec3.normalize sqrt v)) ∧
    generate_sphere sqrt vertices 0 =
      indices.map (fun i => Vec3.normalize sqrt (vertexAt icosahedronVertices i)) ∧
    indices.length = 60 ∧
    (icosahedronVertices : List (Vec3 K)).length = 12 ∧
    (∀ i ∈ indices, i < 12) := by
  refine ⟨rfl, rfl, ?_, rfl, rfl, rfl, by decide⟩
  intro k j
  fin_cases k <;> fin_cases j <;> exact ⟨_, _, rfl, rfl, rfl⟩

/-- C4: for every `n` and every face index `k < 20 * 4^n`, triangle `k` of
`generate_sphere n` exists, and with `(v0, v1, v2)` its vertices and
`m01 = normalize ((v0 + v1) / 2)`, `m12 = normalize ((v1 + v2) / 2)`,
`m02 = normalize ((v0 + v2) / 2)`, the half sums written out in coordinates, the
triangles `4k`, `4k+1`, `4k+2`, `4k+3` of `generate_sphere (n+1)` are `(v0, m01, m02)`,
`(m01, v1, m12)`, `(m02, m12, v2)`, `(m01, m12, m02)`; `normalize v` is `v` with every
coordinate multiplied by `1 / sqrt (v · v)`. -/
theorem generate_sphere_succ_triangles (sqrt : K → K) (vertices vertices1 : List (Vec3 K))
    (n k : Nat) (hk : k < 20 * 4 ^ n) :
    (∃ f : Face K, triangle (generate_sphere sqrt vertices n) k = some f ∧
      triangle (generate_sphere sqrt vertices1 (n + 1)) (4 * k) =
        some ⟨f.v0,
          Vec3.normalize sqrt ⟨(f.v0.x + f.v1.x) / 2, (f.v0.y + f.v1.y) / 2, (f.v0.z + f.v1.z) / 2⟩,
          Vec3.normalize sqrt ⟨(f.v0.x + f.v2.x) / 2, (f.v0.y + f.v2.y) / 2, (f.v0.z + f.v2.z) / 2⟩⟩ ∧
      triangle (generate_sphere sqrt vertices1 (n + 1)) (4 * k + 1) =
        some ⟨Vec3.normalize sqrt ⟨(f.v0.x + f.v1.x) / 2, (f.v0.y + f.v1.y) / 2, (f.v0.z + f.v1.z) / 2⟩,
          f.v1,
          Vec3.normalize sqrt ⟨(f.v1.x + f.v2.x) / 2, (f.v1.y + f.v2.y) / 2, (f.v1.z + f.v2.z) / 2⟩⟩ ∧
      triangle (generate_sphere sqrt vertices1 (n + 1)) (4 * k + 2) =
        some ⟨Vec3.normalize sqrt ⟨(f.v0.x + f.v2.x) / 2, (f.v0.y + f.v2.y) / 2, (f.v0.z + f.v2.z) / 2⟩,
          Vec3.normalize sqrt ⟨(f.v1.x + f.v2.x) / 2, (f.v1.y + f.v2.y) / 2, (f.v1.z + f.v2.z) / 2⟩,
          f.v2⟩ ∧
      triangle (generate_sphere sqrt vertices1 (n + 1)) (4 * k + 3) =
        some ⟨Vec3.normalize sqrt ⟨(f.v0.x + f.v1.x) / 2, (f.v0.y + f.v1.y) / 2, (f.v0.z + f.v1.z) / 2⟩,
          Vec3.normalize sqrt ⟨(f.v1.x + f.v2.x) / 2, (f.v1.y + f.v2.y) / 2, (f.v1.z + f.v2.z) / 2⟩,
          Vec3.normalize sqrt ⟨(f.v0.x + f.v2.x) / 2, (f.v0.y + f.v2.y) / 2, (f.v0.z + f.v2.z) / 2⟩⟩) ∧
    (∀ v : Vec3 K, Vec3.normalize sqrt v =
      ⟨v.x * (1 / sqrt (v.x * v.x + v.y * v.y + v.z * v.z)),
        v.y * (1 / sqrt (v.x * v.x + v.y * v.y + v.z * v.z)),
        v.z * (1 / sqrt (v.x * v.x + v.y * v.y + v.z * v.z))⟩) := by
  have hlen := length_sphereFaces sqrt n
  have hk' : k < (sphereFaces sqrt n).length := by omega
  refine ⟨⟨(sphereFaces sqrt n).get ⟨k, hk'⟩, ?_, ?_, ?_, ?_, ?_⟩, fun _ => rfl⟩
  · simp only [generate_sphere, triangle_flatten]
    exact List.get?_eq_get hk'
  all_goals
    simp only [generate_sphere, triangle_flatten, sphereFaces_succ]
  · have := get?_subdivide sqrt (sphereFaces sqrt n) k 0 (by omega)
    rw [Nat.add_zero] at this
    rw [this, List.get?_eq_get hk']; rfl
  · rw [get?_subdivide sqrt _ k 1 (by omega), List.get?_eq_get hk']; rfl
  · rw [get?_subdivide sqrt _ k 2 (by omega), List.get?_eq_get hk']; rfl
  · rw [get?_subdivide sqrt _ k 3 (by omega), List.get?_eq_get hk']; rfl

/-- The statement of `generate_sphere_succ_triangles` at `n = 1`, `k = 7`, over the
rationals with the rational square root of the library. -/
theorem generate_sphere_succ_triangles_witness :
    7 < 20 * 4 ^ 1 ∧
    ∃ f : Face ℚ, triangle (generate_sphere Rat.sqrt [] 1) 7 = some f ∧
      triangle (generate_sphere Rat.sqrt [] (1 + 1)) (4 * 7) =
        some ⟨f.v0,
          Vec3.normalize Rat.sqrt ⟨(f.v0.x + f.v1.x) / 2, (f.v0.y + f.v1.y) / 2, (f.v0.z + f.v1.z) / 2⟩,
          Vec3.normalize Rat.sqrt ⟨(f.v0.x + f.v2.x) / 2, (f.v0.y + f.v2.y) / 2, (f.v0.z + f.v2.z) / 2⟩⟩ ∧
      triangle (generate_sphere Rat.sqrt [] (1 + 1)) (4 * 7 + 1) =
        some ⟨Vec3.normalize Rat.sqrt ⟨(f.v0.x + f.v1.x) / 2, (f.v0.y + f.v1.y) / 2, (f.v0.z + f.v1.z) / 2⟩,
          f.v1,
          Vec3.normalize Rat.sqrt ⟨(f.v1.x + f.v2.x) / 2, (f.v1.y + f.v2.y) / 2, (f.v1.z + f.v2.z) / 2⟩⟩ ∧
      triangle (generate_sphere Rat.sqrt [] (1 + 1)) (4 * 7 + 2) =
        some ⟨Vec3.normalize Rat.sqrt ⟨(f.v0.x + f.v2.x) / 2, (f.v0.y + f.v2.y) / 2, (f.v0.z + f.v2.z) / 2⟩,
          Vec3.normalize Rat.sqrt ⟨(f.v1.x + f.v2.x) / 2, (f.v1.y + f.v2.y) / 2, (f.v1.z + f.v2.z) / 2⟩,
          f.v2⟩ ∧
      triangle (generate_sphere Rat.sqrt [] (1 + 1)) (4 * 7 + 3) =
        some ⟨Vec3.normalize Rat.sqrt ⟨(f.v0.x + f.v1.x) / 2, (f.v0.y + f.v1.y) / 2, (f.v0.z + f.v1.z) / 2⟩,
          Vec3.normalize Rat.sqrt ⟨(f.v1.x + f.v2.x) / 2, (f.v1.y + f.v2.y) / 2, (f.v1.z + f.v2.z) / 2⟩,
          Vec3.normalize Rat.sqrt ⟨(f.v0.x + f.v2.x) / 2, (f.v0.y + f.v2.y) / 2, (f.v0.z + f.v2.z) / 2⟩⟩ :=
  ⟨by norm_num, (generate_sphere_succ_triangles Rat.sqrt [] [] 1 7 (by norm_num)).1⟩

end SphereLemmas

end Earth

/-! ## Unit norm -/

namespace Earth

section UnitNorm

variable {K : Type} [LinearOrderedField K]

theorem Vec3.dot_comm (a b : Vec3 K) : Vec3.dot a b = Vec3.dot b a := by
  simp only [Vec3.dot]; ring

theorem Vec3.dot_mulScalar (a b : Vec3 K) (s t : K) :
    Vec3.dot (Vec3.mulScalar a s) (Vec3.mulScalar b t) = Vec3.dot a b * (s * t) := by
  simp only [Vec3.dot, Vec3.mulScalar]; ring

theorem Vec3.dot_mulScalar_right (a b : Vec3 K) (t : K) :
    Vec3.dot a (Vec3.mulScalar b t) = Vec3.dot a b * t := by
  simp only [Vec3.dot, Vec3.mulScalar]; ring

theorem Vec3.dot_mulScalar_left (a b : Vec3 K) (s : K) :
    Vec3.dot (Vec3.mulScalar a s) b = Vec3.dot a b * s := by
  simp only [Vec3.dot, Vec3.mulScalar]; ring

theorem Vec3.dot_half_half (a b c d : Vec3 K) :
    Vec3.dot (Vec3.divScalar (Vec3.add a b) 2) (Vec3.divScalar (Vec3.add c d) 2) =
      (Vec3.dot a c + Vec3.dot a d + Vec3.dot b c + Vec3.dot b d) / 4 := by
  simp only [Vec3.dot, Vec3.divScalar, Vec3.add]; ring

theorem Vec3.dot_left_half (a c d : Vec3 K) :
    Vec3.dot a (Vec3.divScalar (Vec3.add c d) 2) = (Vec3.dot a c + Vec3.dot a d) / 2 := by
  simp only [Vec3.dot, Vec3.divScalar, Vec3.add]; ring

theorem Vec3.dot_half_right (a b c : Vec3 K) :
    Vec3.dot (Vec3.divScalar (Vec3.add a b) 2) c = (Vec3.dot a c + Vec3.dot b c) / 2 := by
  simp only [Vec3.dot, Vec3.divScalar, Vec3.add]; ring

theorem Vec3.dot_zero : Vec3.dot (⟨0, 0, 0⟩ : Vec3 K) ⟨0, 0, 0⟩ = 0 := by
  simp [Vec3.dot]

theorem sqrt_pos_of_pos (sqrt : K → K) (hmul : ∀ x, 0 ≤ x → sqrt x * sqrt x = x)
    (hnonneg : ∀ x, 0 ≤ sqrt x) (x : K) (hx : 0 < x) : 0 < sqrt x := by
  rcases (hnonneg x).lt_or_eq with h | h
  · exact h
  · have := hmul x hx.le
    rw [← h] at this
    simp at this
    exact absurd this.symm hx.ne'

theorem sqrt_one (sqrt : K → K) (hmul : ∀ x, 0 ≤ x → sqrt x * sqrt x = x)
    (hnonneg : ∀ x, 0 ≤ sqrt x) : sqrt 1 = 1 := by
  have h := hmul 1 zero_le_one
  have hpos := sqrt_pos_of_pos sqrt hmul hnonneg 1 zero_lt_one
  nlinarith

theorem Vec3.dot_normalize_self (sqrt : K → K) (hmul : ∀ x, 0 ≤ x → sqrt x * sqrt x = x)
    (hnonneg : ∀ x, 0 ≤ sqrt x) (a : Vec3 K) (ha : 0 < Vec3.dot a a) :
    Vec3.dot (Vec3.normalize sqrt a) (Vec3.normalize sqrt a) = 1 := by
  have hpos := sqrt_pos_of_pos sqrt hmul hnonneg _ ha
  rw [Vec3.normalize, Vec3.dot_mulScalar]
  have h := hmul _ ha.le
  field_simp
  rw [h]

theorem Vec3.dot_normalize_pos (sqrt : K → K) (hmul : ∀ x, 0 ≤ x → sqrt x * sqrt x = x)
    (hnonneg : ∀ x, 0 ≤ sqrt x) (a b : Vec3 K) (ha : 0 < Vec3.dot a a)
    (hb : 0 < Vec3.dot b b) (hab : 0 < Vec3.dot a b) :
    0 < Vec3.dot (Vec3.normalize sqrt a) (Vec3.normalize sqrt b) := by
  have hpa := sqrt_pos_of_pos sqrt hmul hnonneg _ ha
  have hpb := sqrt_pos_of_pos sqrt hmul hnonneg _ hb
  rw [Vec3.normalize, Vec3.normalize, Vec3.dot_mulScalar]
  positivity

theorem Vec3.dot_normalize_right_pos (sqrt : K → K)
    (hmul : ∀ x, 0 ≤ x → sqrt x * sqrt x = x)
    (hnonneg : ∀ x, 0 ≤ sqrt x) (a b : Vec3 K)
    (hb : 0 < Vec3.dot b b) (hab : 0 < Vec3.dot a b) :
    0 < Vec3.dot a (Vec3.normalize sqrt b) := by
  have hpb := sqrt_pos_of_pos sqrt hmul hnonneg _ hb
  rw [Vec3.normalize, Vec3.dot_mulScalar_right]
  positivity

theorem Vec3.dot_normalize_left_pos (sqrt : K → K)
    (hmul : ∀ x, 0 ≤ x → sqrt x * sqrt x = x)
    (hnonneg : ∀ x, 0 ≤ sqrt x) (a b : Vec3 K)
    (ha : 0 < Vec3.dot a a) (hab : 0 < Vec3.dot a b) :
    0 < Vec3.dot (Vec3.normalize sqrt a) b := by
  have hpa := sqrt_pos_of_pos sqrt hmul hnonneg _ ha
  rw [Vec3.normalize, Vec3.dot_mulScalar_left]
  positivity

/-- Normalising three non-zero vectors with pairwise positive scalar products gives a
proper face. -/
theorem Face.proper_of_rawProper (sqrt : K → K) (hmul : ∀ x, 0 ≤ x → sqrt x * sqrt x = x)
    (hnonneg : ∀ x, 0 ≤ sqrt x) (f : Face K) (hf : f.RawProper) :
    Face.Proper ⟨Vec3.normalize sqrt f.v0, Vec3.normalize sqrt f.v1,
      Vec3.normalize sqrt f.v2⟩ := by
  obtain ⟨h0, h1, h2, h01, h12, h02⟩ := hf
  exact ⟨Vec3.dot_normalize_self sqrt hmul hnonneg _ h0,
    Vec3.dot_normalize_self sqrt hmul hnonneg _ h1,
    Vec3.dot_normalize_self sqrt hmul hnonneg _ h2,
    Vec3.dot_normalize_pos sqrt hmul hnonneg _ _ h0 h1 h01,
    Vec3.dot_normalize_pos sqrt hmul hnonneg _ _ h1 h2 h12,
    Vec3.dot_normalize_pos sqrt hmul hnonneg _ _ h0 h2 h02⟩

/-- The scalar square of the half sum of two unit vectors with positive scalar
product is positive: the half sum is not the zero vector. -/
theorem Vec3.half_sum_sq_pos (a b : Vec3 K) (ha : Vec3.dot a a = 1) (hb : Vec3.dot b b = 1)
    (hab : 0 < Vec3.dot a b) :
    0 < Vec3.dot (Vec3.divScalar (Vec3.add a b) 2) (Vec3.divScalar (Vec3.add a b) 2) := by
  rw [Vec3.dot_half_half, Vec3.dot_comm b a, ha, hb]
  linarith

theorem Vec3.half_sum_ne_zero (a b : Vec3 K) (ha : Vec3.dot a a = 1) (hb : Vec3.dot b b = 1)
    (hab : 0 < Vec3.dot a b) : Vec3.divScalar (Vec3.add a b) 2 ≠ ⟨0, 0, 0⟩ := by
  intro h
  have := Vec3.half_sum_sq_pos a b ha hb hab
  rw [h, Vec3.dot_zero] at this
  exact lt_irrefl _ this

theorem midpoint_dot_self (sqrt : K → K) (hmul : ∀ x, 0 ≤ x → sqrt x * sqrt x = x)
    (hnonneg : ∀ x, 0 ≤ sqrt x) (a b : Vec3 K) (ha : Vec3.dot a a = 1)
    (hb : Vec3.dot b b = 1) (hab : 0 < Vec3.dot a b) :
    Vec3.dot (midpoint sqrt a b) (midpoint sqrt a b) = 1 :=
  Vec3.dot_normalize_self sqrt hmul hnonneg _ (Vec3.half_sum_sq_pos a b ha hb hab)

/-- The four faces that replace a proper face are proper. -/
theorem subdivideFace_proper (sqrt : K → K) (hmul : ∀ x, 0 ≤ x → sqrt x * sqrt x = x)
    (hnonneg : ∀ x, 0 ≤ sqrt x) (f : Face K) (hf : f.Proper) :
    ∀ g ∈ subdivideFace sqrt f, g.Proper := by
  obtain ⟨h0, h1, h2, h01, h12, h02⟩ := hf
  have h10 : 0 < Vec3.dot f.v1 f.v0 := by rw [Vec3.dot_comm]; exact h01
  have h21 : 0 < Vec3.dot f.v2 f.v1 := by rw [Vec3.dot_comm]; exact h12
  have h20 : 0 < Vec3.dot f.v2 f.v0 := by rw [Vec3.dot_comm]; exact h02
  have q01 := Vec3.half_sum_sq_pos f.v0 f.v1 h0 h1 h01
  have q12 := Vec3.half_sum_sq_pos f.v1 f.v2 h1 h2 h12
  have q02 := Vec3.half_sum_sq_pos f.v0 f.v2 h0 h2 h02
  have u01 := midpoint_dot_self sqrt hmul hnonneg f.v0 f.v1 h0 h1 h01
  have u12 := midpoint_dot_self sqrt hmul hnonneg f.v1 f.v2 h1 h2 h12
  have u02 := midpoint_dot_self sqrt hmul hnonneg f.v0 f.v2 h0 h2 h02
  have pr : ∀ (a c d : Vec3 K), 0 < Vec3.dot a c → 0 < Vec3.dot a d →
      0 < Vec3.dot (Vec3.divScalar (Vec3.add c d) 2) (Vec3.divScalar (Vec3.add c d) 2) →
      0 < Vec3.dot a (midpoint sqrt c d) := by
    intro a c d hac had hq
    refine Vec3.dot_normalize_right_pos sqrt hmul hnonneg _ _ hq ?_
    rw [Vec3.dot_left_half]; linarith
  have pl : ∀ (a b c : Vec3 K), 0 < Vec3.dot a c → 0 < Vec3.dot b c →
      0 < Vec3.dot (Vec3.divScalar (Vec3.add a b) 2) (Vec3.divScalar (Vec3.add a b) 2) →
      0 < Vec3.dot (midpoint sqrt a b) c := by
    intro a b c hac hbc hq
    refine Vec3.dot_normalize_left_pos sqrt hmul hnonneg _ _ hq ?_
    rw [Vec3.dot_half_right]; linarith
  have pm : ∀ (a b c d : Vec3 K), 0 < Vec3.dot a c → 0 < Vec3.dot a d →
      0 < Vec3.dot b c → 0 < Vec3.dot b d →
      0 < Vec3.dot (Vec3.divScalar (Vec3.add a b) 2) (Vec3.divScalar (Vec3.add a b) 2) →
      0 < Vec3.dot (Vec3.divScalar (Vec3.add c d) 2) (Vec3.divScalar (Vec3.add c d) 2) →
      0 < Vec3.dot (midpoint sqrt a b) (midpoint sqrt c d) := by
    intro a b c d hac had hbc hbd hq hq'
    refine Vec3.dot_normalize_pos sqrt hmul hnonneg _ _ hq hq' ?_
    rw [Vec3.dot_half_half]; linarith
  have p00 : 0 < Vec3.dot f.v0 f.v0 := by rw [h0]; exact zero_lt_one
  have p11 : 0 < Vec3.dot f.v1 f.v1 := by rw [h1]; exact zero_lt_one
  have p22 : 0 < Vec3.dot f.v2 f.v2 := by rw [h2]; exact zero_lt_one
  intro g hg
  simp only [subdivideFace, List.mem_cons, List.mem_singleton, List.not_mem_nil,
    or_false] at hg
  rcases hg with rfl | rfl | rfl | rfl
  · exact ⟨h0, u01, u02, pr _ _ _ p00 h01 q01, pm _ _ _ _ p00 h02 h10 h12 q01 q02,
      pr _ _ _ p00 h02 q02⟩
  · exact ⟨u01, h1, u12, pl _ _ _ h01 p11 q01, pr _ _ _ p11 h12 q12,
      pm _ _ _ _ h01 h02 p11 h12 q01 q12⟩
  · exact ⟨u02, u12, h2, pm _ _ _ _ h01 h02 h21 p22 q02 q12, pl _ _ _ h12 p22 q12,
      pl _ _ _ h02 p22 q02⟩
  · exact ⟨u01, u12, u02, pm _ _ _ _ h01 h02 p11 h12 q01 q12,
      pm _ _ _ _ h10 h12 h20 p22 q12 q02, pm _ _ _ _ p00 h02 h10 h12 q01 q02⟩

theorem subdivide_proper (sqrt : K → K) (hmul : ∀ x, 0 ≤ x → sqrt x * sqrt x = x)
    (hnonneg : ∀ x, 0 ≤ sqrt x) (fs : List (Face K)) (hfs : ∀ f ∈ fs, f.Proper) :
    ∀ g ∈ subdivide sqrt fs, g.Proper := by
  intro g hg
  obtain ⟨f, hf, hgf⟩ := (mem_subdivide sqrt fs g).1 hg
  exact subdivideFace_proper sqrt hmul hnonneg f (hfs f hf) g hgf

/-- The twenty triples of table entries selected by the index list are non-zero vectors
with pairwise positive scalar products. -/
theorem rawFaces_rawProper :
    ∀ f ∈ buildFaces (icosahedronVertices : List (Vec3 K)) indices, f.RawProper := by
  simp only [buildFaces, indices, icosahedronVertices, vertexAt, List.getD_cons_zero,
    List.getD_cons_succ, List.forall_mem_cons]
  refine ⟨?_, ?_, ?_, ?_, ?_, ?_, ?_, ?_, ?_, ?_, ?_, ?_, ?_, ?_, ?_, ?_, ?_, ?_, ?_, ?_,
    ?_⟩
  all_goals first
    | (intro f hf; exact absurd hf (List.not_mem_nil f))
    | (simp only [Face.RawProper, Vec3.dot]; norm_num)

theorem baseFaces_eq_map (sqrt : K → K) :
    baseFaces sqrt = (buildFaces (icosahedronVertices : List (Vec3 K)) indices).map
      (fun f => ⟨Vec3.normalize sqrt f.v0, Vec3.normalize sqrt f.v1,
        Vec3.normalize sqrt f.v2⟩) := rfl

theorem baseFaces_proper (sqrt : K → K) (hmul : ∀ x, 0 ≤ x → sqrt x * sqrt x = x)
    (hnonneg : ∀ x, 0 ≤ sqrt x) : ∀ f ∈ baseFaces sqrt, f.Proper := by
  intro f hf
  rw [baseFaces_eq_map, List.mem_map] at hf
  obtain ⟨r, hr, rfl⟩ := hf
  exact Face.proper_of_rawProper sqrt hmul hnonneg r (rawFaces_rawProper r hr)

theorem sphereFaces_proper (sqrt : K → K) (hmul : ∀ x, 0 ≤ x → sqrt x * sqrt x = x)
    (hnonneg : ∀ x, 0 ≤ sqrt x) (n : Nat) : ∀ f ∈ sphereFaces sqrt n, f.Proper := by
  induction n with
  | zero => exact baseFaces_proper sqrt hmul hnonneg
  | succ n ih =>
    rw [sphereFaces_succ]
    exact subdivide_proper sqrt hmul hnonneg _ ih

theorem flatten_unit (sqrt : K → K) (hmul : ∀ x, 0 ≤ x → sqrt x * sqrt x = x)
    (hnonneg : ∀ x, 0 ≤ sqrt x) (fs : List (Face K)) (hfs : ∀ f ∈ fs, f.Proper) :
    ∀ v ∈ flatten fs, Vec3.dot v v = 1 ∧ Vec3.length sqrt v = 1 := by
  intro v hv
  obtain ⟨f, hf, hvf⟩ := (mem_flatten fs v).1 hv
  obtain ⟨h0, h1, h2, -⟩ := hfs f hf
  have h1' := sqrt_one sqrt hmul hnonneg
  rcases hvf with rfl | rfl | rfl
  · exact ⟨h0, by rw [Vec3.length, h0, h1']⟩
  · exact ⟨h1, by rw [Vec3.length, h1, h1']⟩
  · exact ⟨h2, by rw [Vec3.length, h2, h1']⟩

/-- C2: with exact arithmetic and a square root (`sqrt x * sqrt x = x` for `0 ≤ x`,
`0 ≤ sqrt x`), for every subdivision count every vertex returned by `generate_sphere`
has scalar square 1 and Euclidean norm 1; one more subdivision step applied to the
returned mesh again yields only such vertices; and no half sum `(v0+v1)/2`, `(v1+v2)/2`,
`(v0+v2)/2` of a face reached from the icosahedron is the zero vector (whose
normalisation would not have norm 1). -/
theorem generate_sphere_unit_norm (sqrt : K → K)
    (hmul : ∀ x, 0 ≤ x → sqrt x * sqrt x = x) (hnonneg : ∀ x, 0 ≤ sqrt x)
    (vertices : List (Vec3 K)) (n : Nat) :
    (∀ v ∈ generate_sphere sqrt vertices n, Vec3.dot v v = 1 ∧ Vec3.length sqrt v = 1) ∧
    (∀ v ∈ flatten (subdivide sqrt (toFaces (generate_sphere sqrt vertices n))),
      Vec3.dot v v = 1 ∧ Vec3.length sqrt v = 1) ∧
    (∀ f ∈ toFaces (generate_sphere sqrt vertices n),
      Vec3.divScalar (Vec3.add f.v0 f.v1) 2 ≠ ⟨0, 0, 0⟩ ∧
      Vec3.divScalar (Vec3.add f.v1 f.v2) 2 ≠ ⟨0, 0, 0⟩ ∧
      Vec3.divScalar (Vec3.add f.v0 f.v2) 2 ≠ ⟨0, 0, 0⟩) ∧
    Vec3.length sqrt (Vec3.normalize sqrt ⟨0, 0, 0⟩) ≠ 1 := by
  have hp := sphereFaces_proper sqrt hmul hnonneg n
  refine ⟨?_, ?_, ?_, ?_⟩
  · exact flatten_unit sqrt hmul hnonneg _ hp
  · rw [generate_sphere, toFaces_flatten]
    exact flatten_unit sqrt hmul hnonneg _ (subdivide_proper sqrt hmul hnonneg _ hp)
  · rw [generate_sphere, toFaces_flatten]
    intro f hf
    obtain ⟨h0, h1, h2, h01, h12, h02⟩ := hp f hf
    exact ⟨Vec3.half_sum_ne_zero _ _ h0 h1 h01, Vec3.half_sum_ne_zero _ _ h1 h2 h12,
      Vec3.half_sum_ne_zero _ _ h0 h2 h02⟩
  · have h0 : sqrt 0 = 0 := by
      have := hmul 0 le_rfl
      simpa using this
    simp [Vec3.length, Vec3.normalize, Vec3.mulScalar, Vec3.dot, h0]

/-- The statement of `generate_sphere_unit_norm` over the real numbers with the real
square root, for two subdivisions. -/
theorem generate_sphere_unit_norm_witness :
    ((∀ x : ℝ, 0 ≤ x → Real.sqrt x * Real.sqrt x = x) ∧ (∀ x : ℝ, 0 ≤ Real.sqrt x)) ∧
    ((∀ v ∈ generate_sphere Real.sqrt [] 2,
      Vec3.dot v v = 1 ∧ Vec3.length Real.sqrt v = 1) ∧
    (∀ v ∈ flatten (subdivide Real.sqrt (toFaces (generate_sphere Real.sqrt [] 2))),
      Vec3.dot v v = 1 ∧ Vec3.length Real.sqrt v = 1) ∧
    (∀ f ∈ toFaces (generate_sphere Real.sqrt [] 2),
      Vec3.divScalar (Vec3.add f.v0 f.v1) 2 ≠ ⟨0, 0, 0⟩ ∧
      Vec3.divScalar (Vec3.add f.v1 f.v2) 2 ≠ ⟨0, 0, 0⟩ ∧
      Vec3.divScalar (Vec3.add f.v0 f.v2) 2 ≠ ⟨0, 0, 0⟩) ∧
    Vec3.length Real.sqrt (Vec3.normalize Real.sqrt ⟨0, 0, 0⟩) ≠ 1) :=
  ⟨⟨fun _ hx => Real.mul_self_sqrt hx, Real.sqrt_nonneg⟩,
    generate_sphere_unit_norm Real.sqrt (fun _ hx => Real.mul_self_sqrt hx)
      Real.sqrt_nonneg [] 2⟩

end UnitNorm

end Earth

/-! ## The camera update -/

namespace Earth

section Camera

variable {K : Type} [LinearOrderedField K]

theorem onlyHeld_self (sym : SDL_Keycode) : onlyHeld sym sym = true := by
  simp [onlyHeld]

theorem onlyHeld_ne (sym k : SDL_Keycode) (h : k ≠ sym) : onlyHeld sym k = false := by
  simp [onlyHeld, h]

/-- C5: one frame update with only the up key held moves the camera distance `d` to
`d - min (min (d - 1) 3) 3 * dt` and leaves pitch and yaw as they were; at `d = 2.5`
the new distance is `2.5 - 1.5 * dt`. -/
theorem update_only_up (s : State K) (dt : K) (hkeys : s.button_down = onlyHeld SDLK_UP) :
    (update s dt).camera_distance =
      s.camera_distance - min (min (s.camera_distance - 1) 3) 3 * dt ∧
    (update s dt).view_angle = s.view_angle ∧
    (update s dt).camera_rotation = s.camera_rotation ∧
    (s.camera_distance = 2.5 →
      (update s dt).camera_distance = 2.5 - min (min (2.5 - 1) 3) 3 * dt ∧
      (update s dt).camera_distance = 2.5 - 1.5 * dt) := by
  have hup : s.button_down SDLK_UP = true := by rw [hkeys]; exact onlyHeld_self _
  have hdown : s.button_down SDLK_DOWN = false := by rw [hkeys]; exact onlyHeld_ne _ _ (by decide)
  have ha : s.button_down SDLK_a = false := by rw [hkeys]; exact onlyHeld_ne _ _ (by decide)
  have hd : s.button_down SDLK_d = false := by rw [hkeys]; exact onlyHeld_ne _ _ (by decide)
  have hw : s.button_down SDLK_w = false := by rw [hkeys]; exact onlyHeld_ne _ _ (by decide)
  have hs : s.button_down SDLK_s = false := by rw [hkeys]; exact onlyHeld_ne _ _ (by decide)
  have hdist : (update s dt).camera_distance =
      s.camera_distance - min (min (s.camera_distance - 1) 3) 3 * dt := by
    simp [update, hup, hdown]
  refine ⟨hdist, by simp [update, hw, hs], by simp [update, ha, hd], ?_⟩
  intro h25
  rw [hdist, h25]
  refine ⟨rfl, ?_⟩
  have h1 : min ((2.5 : K) - 1) 3 = 1.5 := by
    rw [min_eq_left] <;> norm_num
  rw [h1, min_eq_left (by norm_num)]

/-- The statement of `update_only_up` at the rational state `heldState SDLK_UP`, whose
distance is 2.5, for a frame of a sixtieth of a second. -/
theorem update_only_up_witness :
    (heldState SDLK_UP).button_down = onlyHeld SDLK_UP ∧
    (heldState SDLK_UP).camera_distance = 2.5 ∧
    (update (heldState SDLK_UP) (1 / 60)).camera_distance = 2.5 - 1.5 * (1 / 60) := by
  refine ⟨rfl, rfl, ?_⟩
  exact ((update_only_up (heldState SDLK_UP) (1 / 60) rfl).2.2.2 rfl).2

/-- C6, as the claim states it, fails: with only the key `a` held, at distance 2.5 and
for a frame of one second, the yaw does not change by `-min (min (d - 1) 3) 2 * dt`; it
goes from 0 to `3/2`, not to `-3/2`. -/
theorem update_only_a_not_minus :
    ¬ ((update (heldState SDLK_a) 1).camera_rotation =
        (heldState SDLK_a).camera_rotation -
          min (min ((heldState SDLK_a).camera_distance - 1) 3) 2 * 1) ∧
    (heldState SDLK_a).camera_rotation = 0 ∧
    (update (heldState SDLK_a) 1).camera_rotation = 3 / 2 := by
  have h : (update (heldState SDLK_a) 1).camera_rotation = 3 / 2 := by
    simp [update, heldState, startState, onlyHeld, SDLK_a, SDLK_d, SDLK_UP, SDLK_DOWN,
      SDLK_w, SDLK_s]
    norm_num
  refine ⟨?_, rfl, h⟩
  rw [h]
  simp [heldState, startState]
  norm_num

/-- C6, amended: holding only the key `a` changes the yaw by
`+min (min (d - 1) 3) 2 * dt`, holding only the key `d` changes it by
`-min (min (d - 1) 3) 2 * dt`; distance and pitch are unchanged in both cases. -/
theorem update_only_a_or_d (s : State K) (dt : K) :
    (s.button_down = onlyHeld SDLK_a →
      (update s dt).camera_rotation =
        s.camera_rotation + min (min (s.camera_distance - 1) 3) 2 * dt ∧
      (update s dt).camera_distance = s.camera_distance ∧
      (update s dt).view_angle = s.view_angle) ∧
    (s.button_down = onlyHeld SDLK_d →
      (update s dt).camera_rotation =
        s.camera_rotation - min (min (s.camera_distance - 1) 3) 2 * dt ∧
      (update s dt).camera_distance = s.camera_distance ∧
      (update s dt).view_angle = s.view_angle) := by
  constructor
  · intro hkeys
    have ha : s.button_down SDLK_a = true := by rw [hkeys]; exact onlyHeld_self _
    have hup : s.button_down SDLK_UP = false := by rw [hkeys]; exact onlyHeld_ne _ _ (by decide)
    have hdown : s.button_down SDLK_DOWN = false := by rw [hkeys]; exact onlyHeld_ne _ _ (by decide)
    have hd : s.button_down SDLK_d = false := by rw [hkeys]; exact onlyHeld_ne _ _ (by decide)
    have hw : s.button_down SDLK_w = false := by rw [hkeys]; exact onlyHeld_ne _ _ (by decide)
    have hs : s.button_down SDLK_s = false := by rw [hkeys]; exact onlyHeld_ne _ _ (by decide)
    exact ⟨by simp [update, ha, hd], by simp [update, hup, hdown], by simp [update, hw, hs]⟩
  · intro hkeys
    have hd : s.button_down SDLK_d = true := by rw [hkeys]; exact onlyHeld_self _
    have hup : s.button_down SDLK_UP = false := by rw [hkeys]; exact onlyHeld_ne _ _ (by decide)
    have hdown : s.button_down SDLK_DOWN = false := by rw [hkeys]; exact onlyHeld_ne _ _ (by decide)
    have ha : s.button_down SDLK_a = false := by rw [hkeys]; exact onlyHeld_ne _ _ (by decide)
    have hw : s.button_down SDLK_w = false := by rw [hkeys]; exact onlyHeld_ne _ _ (by decide)
    have hs : s.button_down SDLK_s = false := by rw [hkeys]; exact onlyHeld_ne _ _ (by decide)
    exact ⟨by simp [update, ha, hd], by simp [update, hup, hdown], by simp [update, hw, hs]⟩

/-- The statement of `update_only_a_or_d` at the rational states `heldState SDLK_a` and
`heldState SDLK_d`, for a frame of one second. -/
theorem update_only_a_or_d_witness :
    ((heldState SDLK_a).button_down = onlyHeld SDLK_a ∧
      (update (heldState SDLK_a) 1).camera_rotation =
        (heldState SDLK_a).camera_rotation +
          min (min ((heldState SDLK_a).camera_distance - 1) 3) 2 * 1) ∧
    ((heldState SDLK_d).button_down = onlyHeld SDLK_d ∧
      (update (heldState SDLK_d) 1).camera_rotation =
        (heldState SDLK_d).camera_rotation -
          min (min ((heldState SDLK_d).camera_distance - 1) 3) 2 * 1) :=
  ⟨⟨rfl, ((update_only_a_or_d (heldState SDLK_a) 1).1 rfl).1⟩,
    ⟨rfl, ((update_only_a_or_d (heldState SDLK_d) 1).2 rfl).1⟩⟩

end Camera

end Earth

/-! ## The sun and the pause flag -/

namespace Earth

section Sun

variable {K : Type} [LinearOrderedField K] [FloorRing K]

theorem fmod_of_nonneg (x y : K) (hx : 0 ≤ x) (hy : 0 < y) :
    fmod x y = x - (⌊x / y⌋ : K) * y := by
  have hq : 0 ≤ x / y := div_nonneg hx hy.le
  simp [fmod, trunc, hq]

theorem fmod_nonneg (x y : K) (hx : 0 ≤ x) (hy : 0 < y) : 0 ≤ fmod x y := by
  rw [fmod_of_nonneg x y hx hy, sub_nonneg]
  have h := Int.floor_le (x / y)
  calc (⌊x / y⌋ : K) * y ≤ x / y * y := mul_le_mul_of_nonneg_right h hy.le
    _ = x := div_mul_cancel₀ x hy.ne'

theorem fmod_lt (x y : K) (hx : 0 ≤ x) (hy : 0 < y) : fmod x y < y := by
  rw [fmod_of_nonneg x y hx hy]
  have h := Int.lt_floor_add_one (x / y)
  have h2 : x / y * y < ((⌊x / y⌋ : K) + 1) * y := mul_lt_mul_of_pos_right h hy
  rw [div_mul_cancel₀ x hy.ne'] at h2
  linarith

theorem fmod_unique (x y a : K) (k : Int) (hy : 0 < y) (ha0 : 0 ≤ a) (hay : a < y)
    (hx0 : 0 ≤ x) (hx : x = a + (k : K) * y) : a = fmod x y := by
  have hfloor : ⌊x / y⌋ = k := by
    rw [Int.floor_eq_iff]
    have hxy : x / y = a / y + k := by
      rw [hx]; field_simp
    rw [hxy]
    have h1 : 0 ≤ a / y := div_nonneg ha0 hy.le
    have h2 : a / y < 1 := (div_lt_one hy).2 hay
    constructor <;> linarith
  rw [fmod_of_nonneg x y hx0 hy, hfloor, hx]
  ring

/-- C7: for accumulated time `t ≥ 0` the sun angle is `t` modulo `2 * M_PI`: it lies in
`[0, 2 * M_PI)`, differs from `t` by an integer multiple of `2 * M_PI`, and is the only
such value; the sun position is `(cos angle, 0, sin angle)`; at `t = 2 * M_PI + 0.3` the
angle is `0.3` and the position `(cos 0.3, 0, sin 0.3)`. Arithmetic is exact and
`M_PI` is any constant above 3. -/
theorem sun_angle_mod (M_PI : K) (cos sin : K → K) (t : K) (hpi : 3 < M_PI) (ht : 0 ≤ t) :
    (0 ≤ sun_angle M_PI t ∧ sun_angle M_PI t < 2 * M_PI) ∧
    (∃ k : Int, t = sun_angle M_PI t + (k : K) * (2 * M_PI)) ∧
    (∀ a : K, 0 ≤ a → a < 2 * M_PI → (∃ k : Int, t = a + (k : K) * (2 * M_PI)) →
      a = sun_angle M_PI t) ∧
    sun_pos M_PI cos sin t = ⟨cos (sun_angle M_PI t), 0, sin (sun_angle M_PI t)⟩ ∧
    sun_angle M_PI (2 * M_PI + 0.3) = 0.3 ∧
    sun_pos M_PI cos sin (2 * M_PI + 0.3) = ⟨cos 0.3, 0, sin 0.3⟩ := by
  have hy : (0 : K) < 2 * M_PI := by linarith
  have h03 : sun_angle M_PI (2 * M_PI + 0.3) = 0.3 := by
    have h := fmod_unique (2 * M_PI + 0.3) (2 * M_PI) 0.3 1 hy (by norm_num)
      (by norm_num; linarith) (by norm_num; linarith) (by push_cast; ring)
    exact h.symm
  refine ⟨⟨fmod_nonneg t _ ht hy, fmod_lt t _ ht hy⟩, ?_, ?_, rfl, h03, ?_⟩
  · exact ⟨⌊t / (2 * M_PI)⌋, by rw [sun_angle, fmod_of_nonneg t _ ht hy]; ring⟩
  · rintro a ha0 hay ⟨k, hk⟩
    exact fmod_unique t (2 * M_PI) a k hy ha0 hay ht hk
  · simp only [sun_pos, h03]

/-- The statement of `sun_angle_mod` over the rationals, with the decimal expansion of
`M_PI` of the C library, at `t = 10`: the angle is `10 - 2 * M_PI`. -/
theorem sun_angle_mod_witness :
    ((3 : ℚ) < 3.14159265358979323846 ∧ (0 : ℚ) ≤ 10) ∧
    sun_angle (3.14159265358979323846 : ℚ) 10 = 10 - 2 * 3.14159265358979323846 ∧
    sun_angle (3.14159265358979323846 : ℚ) (2 * 3.14159265358979323846 + 0.3) = 0.3 := by
  have h := sun_angle_mod (3.14159265358979323846 : ℚ) (fun x => x) (fun x => x) 10
    (by norm_num) (by norm_num)
  refine ⟨⟨by norm_num, by norm_num⟩, ?_, h.2.2.2.2.1⟩
  exact (h.2.2.1 _ (by norm_num) (by norm_num) ⟨1, by norm_num⟩).symm

end Sun

section Pause

variable {K : Type} [LinearOrderedField K]

theorem update_paused_eq (s : State K) (dt : K) : (update s dt).paused = s.paused := rfl

theorem foldl_update_paused (s : State K) (dts : List K) (hp : s.paused = true) :
    (dts.foldl update s).paused = true ∧ (dts.foldl update s).time = s.time := by
  induction dts generalizing s with
  | nil => exact ⟨hp, rfl⟩
  | cons dt rest ih =>
    have h1 : (update s dt).paused = true := hp
    have h2 : (update s dt).time = s.time := by simp [update, hp]
    obtain ⟨h3, h4⟩ := ih (update s dt) h1
    exact ⟨h3, by rw [List.foldl_cons, h4, h2]⟩

/-- C8: with the pause flag set, for every frame time and every held-key set the
update leaves the accumulated time unchanged, and so does any number of updates in a
row; the camera distance, pitch and yaw it produces are those the same update produces
with the flag cleared; with the flag cleared the accumulated time becomes
`time + dt`. -/
theorem update_paused (s : State K) (dt : K) (hp : s.paused = true) :
    (update s dt).time = s.time ∧
    (update s dt).paused = true ∧
    (∀ dts : List K, (dts.foldl update s).time = s.time) ∧
    (update s dt).camera_distance = (update { s with paused := false } dt).camera_distance ∧
    (update s dt).view_angle = (update { s with paused := false } dt).view_angle ∧
    (update s dt).camera_rotation = (update { s with paused := false } dt).camera_rotation ∧
    (update { s with paused := false } dt).time = s.time + dt :=
  ⟨by simp [update, hp], hp, fun dts => (foldl_update_paused s dts hp).2, rfl, rfl, rfl,
    by simp [update]⟩

/-- The statement of `update_paused` at the rational state `heldState SDLK_UP` with the
pause flag set: two updates of one and two seconds leave the time at 0 while the
distance moves as it does without the flag. -/
theorem update_paused_witness :
    ({ heldState SDLK_UP with paused := true } : State ℚ).paused = true ∧
    (update { heldState SDLK_UP with paused := true } 1).time = 0 ∧
    (([1, 2] : List ℚ).foldl update { heldState SDLK_UP with paused := true }).time = 0 ∧
    (update { heldState SDLK_UP with paused := true } 1).camera_distance =
      (update (heldState SDLK_UP) 1).camera_distance ∧
    (update (heldState SDLK_UP) 1).time = 1 := by
  have h := update_paused { heldState SDLK_UP with paused := true } 1 rfl
  refine ⟨rfl, h.1, h.2.2.1 [1, 2], h.2.2.2.1, ?_⟩
  have h7 := h.2.2.2.2.2.2
  simpa [heldState, startState] using h7

end Pause

end Earth

/-! ## The event drain: resize and quit -/

namespace Earth

section Events

variable {K : Type} [LinearOrderedField K]

theorem resize_hdr_buffers_eq (complete : Int × Int → Int × Int → Bool) (s : State K) :
    resize_hdr_buffers complete s =
      if complete (s.width, s.height) (s.width, s.height) then
        some { s with hdr_buffer_size := (s.width, s.height),
                      hdr_rbo_size := (s.width, s.height),
                      calls := s.calls ++ reallocCalls (s.width, s.height) }
      else none := by
  simp [resize_hdr_buffers, reallocCalls]

theorem lastResize_mem_resizes (events : List SDL_Event) (d : Int × Int)
    (h : lastResize events = some d) : d ∈ resizes events := by
  induction events with
  | nil => simp [lastResize] at h
  | cons e rest ih =>
    cases e with
    | window event data1 data2 =>
      simp only [lastResize] at h
      cases hr : lastResize rest with
      | some d' =>
        rw [hr] at h
        simp only [Option.some.injEq] at h
        subst h
        have := ih hr
        simp only [resizes]
        split <;> simp [this]
      | none =>
        rw [hr] at h
        by_cases he : event = SDL_WINDOWEVENT_RESIZED
        · simp [he] at h
          simp [resizes, he, h]
        · simp [he] at h
    | quit => exact ih (by simpa [lastResize] using h)
    | keydown sym => exact ih (by simpa [lastResize] using h)
    | keyup sym => exact ih (by simpa [lastResize] using h)
    | other => exact ih (by simpa [lastResize] using h)

/-- What one event does to the fields the drain can touch. -/
theorem handleEvent_spec (complete : Int × Int → Int × Int → Bool) (s s' : State K)
    (e : SDL_Event) (h : handleEvent complete s e = some s') :
    s'.time = s.time ∧ s'.camera_distance = s.camera_distance ∧
    s'.view_angle = s.view_angle ∧ s'.camera_rotation = s.camera_rotation ∧
    s'.calls = s.calls ++ reallocCallsAll (resizes [e]) ∧
    (∀ d ∈ resizes [e], complete d d = true) ∧
    (match lastResize [e] with
      | some d => s'.width = d.1 ∧ s'.height = d.2 ∧ s'.hdr_buffer_size = d ∧
          s'.hdr_rbo_size = d
      | none => s'.width = s.width ∧ s'.height = s.height ∧
          s'.hdr_buffer_size = s.hdr_buffer_size ∧ s'.hdr_rbo_size = s.hdr_rbo_size) ∧
    s'.running = (s.running && decide (e ≠ SDL_Event.quit)) := by
  cases e with
  | quit =>
    simp only [handleEvent, Option.some.injEq] at h
    subst h
    simp [resizes, reallocCallsAll, lastResize]
  | window event data1 data2 =>
    by_cases he : event = SDL_WINDOWEVENT_RESIZED
    · simp only [handleEvent, he, if_true, resize_hdr_buffers_eq] at h
      by_cases hc : complete (data1, data2) (data1, data2) = true
      · simp only [hc, if_true, Option.some.injEq] at h
        subst h
        simp [resizes, reallocCallsAll, lastResize, he, hc]
      · simp [hc] at h
    · simp only [handleEvent, he, if_false, Option.some.injEq] at h
      subst h
      simp [resizes, reallocCallsAll, lastResize, he]
  | keydown sym =>
    simp only [handleEvent] at h
    split at h <;>
      (simp only [Option.some.injEq] at h; subst h;
       simp [resizes, reallocCallsAll, lastResize])
  | keyup sym =>
    simp only [handleEvent, Option.some.injEq] at h
    subst h
    simp [resizes, reallocCallsAll, lastResize]
  | other =>
    simp only [handleEvent, Option.some.injEq] at h
    subst h
    simp [resizes, reallocCallsAll, lastResize]

theorem resizes_cons (e : SDL_Event) (rest : List SDL_Event) :
    resizes (e :: rest) = resizes [e] ++ resizes rest := by
  cases e with
  | window event data1 data2 =>
    by_cases he : event = SDL_WINDOWEVENT_RESIZED <;> simp [resizes, he]
  | _ => simp [resizes]

theorem reallocCallsAll_append (ds es : List (Int × Int)) :
    (reallocCallsAll (ds ++ es) : List (Call K)) =
      reallocCallsAll ds ++ reallocCallsAll es := by
  induction ds with
  | nil => rfl
  | cons d rest ih => simp [reallocCallsAll, ih]

theorem lastResize_cons (e : SDL_Event) (rest : List SDL_Event) :
    lastResize (e :: rest) =
      match lastResize rest with
      | some d => some d
      | none => lastResize [e] := by
  cases e with
  | window event data1 data2 =>
    cases hr : lastResize rest <;> simp [lastResize, hr]
  | _ => cases hr : lastResize rest <;> simp [lastResize, hr]

/-- What draining a queue does: time and camera are untouched, the log grows by the
calls of one reallocation per resize event, every one of which passed the completeness
assertion, the window size and both storage sizes are those of the last resize event
(unchanged when there is none), and `running` is cleared exactly when the queue holds a
quit event. -/
theorem pollEvents_spec (complete : Int × Int → Int × Int → Bool)
    (events : List SDL_Event) (s s' : State K)
    (h : pollEvents complete s events = some s') :
    s'.time = s.time ∧ s'.camera_distance = s.camera_distance ∧
    s'.view_angle = s.view_angle ∧ s'.camera_rotation = s.camera_rotation ∧
    s'.calls = s.calls ++ reallocCallsAll (resizes events) ∧
    (∀ d ∈ resizes events, complete d d = true) ∧
    (match lastResize events with
      | some d => s'.width = d.1 ∧ s'.height = d.2 ∧ s'.hdr_buffer_size = d ∧
          s'.hdr_rbo_size = d
      | none => s'.width = s.width ∧ s'.height = s.height ∧
          s'.hdr_buffer_size = s.hdr_buffer_size ∧ s'.hdr_rbo_size = s.hdr_rbo_size) ∧
    s'.running = (s.running && decide (SDL_Event.quit ∉ events)) := by
  induction events generalizing s with
  | nil =>
    simp only [pollEvents, Option.some.injEq] at h
    subst h
    simp [resizes, reallocCallsAll, lastResize]
  | cons e rest ih =>
    simp only [pollEvents] at h
    cases h1 : handleEvent complete s e with
    | none => rw [h1] at h; exact absurd h (by simp)
    | some s1 =>
      rw [h1] at h
      obtain ⟨a1, a2, a3, a4, a5, a6, a7, a8⟩ := handleEvent_spec complete s s1 e h1
      obtain ⟨b1, b2, b3, b4, b5, b6, b7, b8⟩ := ih s1 h
      refine ⟨b1.trans a1, b2.trans a2, b3.trans a3, b4.trans a4, ?_, ?_, ?_, ?_⟩
      · rw [b5, a5, List.append_assoc, ← reallocCallsAll_append, ← resizes_cons]
      · intro d hd
        rw [resizes_cons, List.mem_append] at hd
        exact hd.elim (a6 d) (b6 d)
      · rw [lastResize_cons]
        cases hr : lastResize rest with
        | some d => rw [hr] at b7; exact b7
        | none =>
          rw [hr] at b7
          obtain ⟨c1, c2, c3, c4⟩ := b7
          cases he : lastResize [e] with
          | some d =>
            rw [he] at a7
            exact ⟨c1.trans a7.1, c2.trans a7.2.1, c3.trans a7.2.2.1, c4.trans a7.2.2.2⟩
          | none =>
            rw [he] at a7
            exact ⟨c1.trans a7.1, c2.trans a7.2.1, c3.trans a7.2.2.1, c4.trans a7.2.2.2⟩
      · rw [b8, a8]
        by_cases hq : e = SDL_Event.quit
        · simp [hq]
        · have hq' : ¬ SDL_Event.quit = e := fun h => hq h.symm
          simp [hq, hq', Bool.and_assoc]

/-- The drain returns when every reallocation passes the completeness assertion. -/
theorem pollEvents_some (complete : Int × Int → Int × Int → Bool)
    (events : List SDL_Event) (s : State K)
    (h : ∀ d ∈ resizes events, complete d d = true) :
    ∃ s', pollEvents complete s events = some s' := by
  induction events generalizing s with
  | nil => exact ⟨s, rfl⟩
  | cons e rest ih =>
    rw [resizes_cons] at h
    have hrest : ∀ d ∈ resizes rest, complete d d = true :=
      fun d hd => h d (List.mem_append_right _ hd)
    have he : ∃ s1, handleEvent complete s e = some s1 := by
      cases e with
      | window event data1 data2 =>
        by_cases hev : event = SDL_WINDOWEVENT_RESIZED
        · have hc := h (data1, data2) (by simp [resizes, hev])
          simp [handleEvent, hev, resize_hdr_buffers_eq, hc]
        · simp [handleEvent, hev]
      | keydown sym => simp only [handleEvent]; split <;> simp
      | _ => simp [handleEvent]
    obtain ⟨s1, hs1⟩ := he
    obtain ⟨s', hs'⟩ := ih s1 hrest
    exact ⟨s', by simp only [pollEvents, hs1, hs']⟩

theorem handleEvent_stop (complete : Int × Int → Int × Int → Bool) (s : State K)
    (e : SDL_Event) :
    handleEvent complete s.stop e = (handleEvent complete s e).map State.stop := by
  cases e with
  | window event data1 data2 =>
    by_cases hev : event = SDL_WINDOWEVENT_RESIZED
    · simp only [handleEvent, hev, if_true, resize_hdr_buffers_eq, State.stop]
      split <;> rfl
    · simp [handleEvent, hev, State.stop]
  | keydown sym => simp only [handleEvent, State.stop]; split <;> rfl
  | _ => simp [handleEvent, State.stop]

theorem pollEvents_stop (complete : Int × Int → Int × Int → Bool)
    (events : List SDL_Event) (s : State K) :
    pollEvents complete s.stop events = (pollEvents complete s events).map State.stop := by
  induction events generalizing s with
  | nil => rfl
  | cons e rest ih =>
    simp only [pollEvents, handleEvent_stop]
    cases h1 : handleEvent complete s e with
    | none => rfl
    | some s1 => simp only [Option.map_some']; exact ih s1

theorem stop_stop (s : State K) : s.stop.stop = s.stop := rfl

/-- A queue with a quit event is drained as the same queue without its quit events,
and `running` is cleared at the end: every other event is applied, wherever the quit
event stands. -/
theorem pollEvents_quit (complete : Int × Int → Int × Int → Bool)
    (events : List SDL_Event) (s : State K) (hq : SDL_Event.quit ∈ events) :
    pollEvents complete s events =
      (pollEvents complete s (events.filter (fun e => decide (e ≠ SDL_Event.quit)))).map
        State.stop := by
  induction events generalizing s with
  | nil => simp at hq
  | cons e rest ih =>
    by_cases he : e = SDL_Event.quit
    · subst he
      have h0 : pollEvents complete s (SDL_Event.quit :: rest) =
          pollEvents complete s.stop rest := rfl
      rw [h0, pollEvents_stop]
      simp only [ne_eq, not_true_eq_false, decide_False, Bool.false_eq_true,
        not_false_eq_true, List.filter_cons_of_neg]
      by_cases hr : SDL_Event.quit ∈ rest
      · rw [ih s hr, Option.map_map]
        congr 1
      · have hf : rest.filter (fun e => decide (¬ e = SDL_Event.quit)) = rest := by
          rw [List.filter_eq_self]
          intro a ha
          have : a ≠ SDL_Event.quit := fun h => hr (h ▸ ha)
          simpa using this
        rw [hf]
    · have hr : SDL_Event.quit ∈ rest := by
        rcases List.mem_cons.1 hq with h | h
        · exact absurd h.symm he
        · exact h
      have hk : (e :: rest).filter (fun e => decide (e ≠ SDL_Event.quit)) =
          e :: rest.filter (fun e => decide (e ≠ SDL_Event.quit)) :=
        List.filter_cons_of_pos (by simpa using he)
      rw [hk]
      simp only [pollEvents]
      cases h1 : handleEvent complete s e with
      | none => rfl
      | some s1 => exact ih s1 hr

end Events

end Earth

/-! ## The frame: resize before draw, quit before update -/

namespace Earth

section Frame

variable {K : Type} [LinearOrderedField K] [FloorRing K]

theorem frame_of_pollEvents (complete : Int × Int → Int × Int → Bool) (M_PI : K)
    (cos sin : K → K) (count : Nat) (s s1 : State K) (events : List SDL_Event) (dt : K)
    (h : pollEvents complete s events = some s1) :
    frame complete M_PI cos sin count s events dt =
      if !s1.running then some s1 else some (render M_PI cos sin count (update s1 dt)) := by
  simp only [frame, h]

theorem frame_some_iff (complete : Int × Int → Int × Int → Bool) (M_PI : K)
    (cos sin : K → K) (count : Nat) (s : State K) (events : List SDL_Event) (dt : K) :
    (∃ s', frame complete M_PI cos sin count s events dt = some s') ↔
      ∃ s1, pollEvents complete s events = some s1 := by
  cases h : pollEvents complete s events with
  | none => simp [frame, h]
  | some s1 =>
    rw [frame_of_pollEvents complete M_PI cos sin count s s1 events dt h]
    constructor
    · intro _; exact ⟨s1, rfl⟩
    · intro _; split <;> exact ⟨_, rfl⟩

theorem render_calls (M_PI : K) (cos sin : K → K) (count : Nat) (s : State K) :
    (render M_PI cos sin count s).calls =
      s.calls ++ renderCalls s.width s.height (sun_pos M_PI cos sin s.time) count := rfl

theorem pollEvents_sized (complete : Int × Int → Int × Int → Bool)
    (events : List SDL_Event) (s s' : State K) (hs : s.Sized)
    (h : pollEvents complete s events = some s') : s'.Sized := by
  have h7 := (pollEvents_spec complete events s s' h).2.2.2.2.2.2.1
  cases hr : lastResize events with
  | some d =>
    rw [hr] at h7
    obtain ⟨c1, c2, c3, c4⟩ := h7
    exact ⟨by rw [c3, c1, c2], by rw [c4, c1, c2]⟩
  | none =>
    rw [hr] at h7
    obtain ⟨c1, c2, c3, c4⟩ := h7
    exact ⟨by rw [c3, c1, c2]; exact hs.1, by rw [c4, c1, c2]; exact hs.2⟩

theorem frame_sized (complete : Int × Int → Int × Int → Bool) (M_PI : K)
    (cos sin : K → K) (count : Nat) (s s' : State K) (events : List SDL_Event) (dt : K)
    (hs : s.Sized) (h : frame complete M_PI cos sin count s events dt = some s') :
    s'.Sized := by
  cases h1 : pollEvents complete s events with
  | none => simp [frame, h1] at h
  | some s1 =>
    have hs1 := pollEvents_sized complete events s s1 hs h1
    rw [frame_of_pollEvents complete M_PI cos sin count s s1 events dt h1] at h
    split at h
    · simp only [Option.some.injEq] at h; subst h; exact hs1
    · simp only [Option.some.injEq] at h; subst h; exact hs1

theorem initialState_sized (complete : Int × Int → Int × Int → Bool) (pi : K)
    (width height : Int) (s : State K)
    (h : initialState complete pi width height = some s) : s.Sized := by
  rw [initialState, resize_hdr_buffers_eq] at h
  split at h
  · simp only [Option.some.injEq] at h; subst h; exact ⟨rfl, rfl⟩
  · exact absurd h (by simp)

theorem runFrames_sized (complete : Int × Int → Int × Int → Bool) (M_PI : K)
    (cos sin : K → K) (count : Nat) (inputs : List (List SDL_Event × K))
    (s s' : State K) (hs : s.Sized)
    (h : runFrames complete M_PI cos sin count s inputs = some s') : s'.Sized := by
  induction inputs generalizing s with
  | nil =>
    simp only [runFrames, Option.some.injEq] at h
    subst h; exact hs
  | cons p rest ih =>
    obtain ⟨events, dt⟩ := p
    cases h1 : frame complete M_PI cos sin count s events dt with
    | none => simp [runFrames, h1] at h
    | some s1 =>
      simp only [runFrames, h1] at h
      have hs1 := frame_sized complete M_PI cos sin count s s1 events dt hs h1
      split at h
      · simp only [Option.some.injEq] at h; subst h; exact hs1
      · exact ih s1 hs1 h

/-- C9: when the events drained in a frame contain a resize event and `(W, H)` are the
dimensions of the last one, then after the drain the stored window size and the sizes
at which the colour texture and the depth renderbuffer were last allocated are all
`(W, H)`; every reallocation of the drain is followed by the completeness assertion,
and passed it; the drain returns whenever all these assertions pass; the geometry pass
of the frame comes after the reallocations, at window size `(W, H)`. More generally
the two storage sizes equal the stored window size on entry to the loop and after
every frame of the loop. -/
theorem pollEvents_resize (complete : Int × Int → Int × Int → Bool) (M_PI : K)
    (cos sin : K → K) (count : Nat) (s : State K) (events : List SDL_Event) (dt : K)
    (W H : Int) (hlast : lastResize events = some (W, H)) :
    (∀ s1, pollEvents complete s events = some s1 →
      s1.width = W ∧ s1.height = H ∧
      s1.hdr_buffer_size = (W, H) ∧ s1.hdr_rbo_size = (W, H) ∧
      complete (W, H) (W, H) = true ∧
      (∀ d ∈ resizes events, complete d d = true) ∧
      s1.calls = s.calls ++ reallocCallsAll (resizes events)) ∧
    ((∀ d ∈ resizes events, complete d d = true) →
      ∃ s', frame complete M_PI cos sin count s events dt = some s') ∧
    (∀ s', frame complete M_PI cos sin count s events dt = some s' →
      s'.width = W ∧ s'.height = H ∧
      s'.hdr_buffer_size = (W, H) ∧ s'.hdr_rbo_size = (W, H) ∧
      (s'.running = true →
        s'.calls = s.calls ++ reallocCallsAll (resizes events) ++
          renderCalls W H (sun_pos M_PI cos sin s'.time) count)) ∧
    (∀ (pi : K) (width height : Int) (s0 s' : State K)
      (inputs : List (List SDL_Event × K)),
      initialState complete pi width height = some s0 →
      runFrames complete M_PI cos sin count s0 inputs = some s' →
      s0.Sized ∧ s'.Sized) := by
  have key : ∀ s1, pollEvents complete s events = some s1 →
      s1.width = W ∧ s1.height = H ∧
      s1.hdr_buffer_size = (W, H) ∧ s1.hdr_rbo_size = (W, H) ∧
      complete (W, H) (W, H) = true ∧
      (∀ d ∈ resizes events, complete d d = true) ∧
      s1.calls = s.calls ++ reallocCallsAll (resizes events) := by
    intro s1 h1
    obtain ⟨-, -, -, -, a5, a6, a7, -⟩ := pollEvents_spec complete events s s1 h1
    rw [hlast] at a7
    exact ⟨a7.1, a7.2.1, a7.2.2.1, a7.2.2.2,
      a6 _ (lastResize_mem_resizes events _ hlast), a6, a5⟩
  refine ⟨key, ?_, ?_, ?_⟩
  · intro hall
    exact (frame_some_iff complete M_PI cos sin count s events dt).2
      (pollEvents_some complete events s hall)
  · intro s' h
    cases h1 : pollEvents complete s events with
    | none => simp [frame, h1] at h
    | some s1 =>
      obtain ⟨k1, k2, k3, k4, -, -, k7⟩ := key s1 h1
      rw [frame_of_pollEvents complete M_PI cos sin count s s1 events dt h1] at h
      split at h
      · rename_i hrun
        simp only [Option.some.injEq] at h; subst h
        refine ⟨k1, k2, k3, k4, ?_⟩
        intro hr
        rw [hr] at hrun
        exact absurd hrun (by simp)
      · simp only [Option.some.injEq] at h; subst h
        refine ⟨k1, k2, k3, k4, ?_⟩
        intro _
        rw [render_calls]
        show (update s1 dt).calls ++ renderCalls (update s1 dt).width (update s1 dt).height
          (sun_pos M_PI cos sin (update s1 dt).time) count = _
        have hc : (update s1 dt).calls = s1.calls := rfl
        have hw : (update s1 dt).width = s1.width := rfl
        have hh : (update s1 dt).height = s1.height := rfl
        rw [hc, hw, hh, k7, k1, k2]
        rfl
  · intro pi width height s0 s' inputs h0 hrun
    have hs0 := initialState_sized complete pi width height s0 h0
    exact ⟨hs0, runFrames_sized complete M_PI cos sin count inputs s0 s' hs0 hrun⟩

/-- The statement of `pollEvents_resize` over the rationals: from the start state with
an 800 by 600 window, a frame whose queue holds a resize to 1024 by 768, a key press and
a resize to 640 by 480 returns, with window and both storages at 640 by 480. -/
theorem pollEvents_resize_witness :
    lastResize [SDL_Event.window SDL_WINDOWEVENT_RESIZED 1024 768,
      SDL_Event.keydown SDLK_UP, SDL_Event.window SDL_WINDOWEVENT_RESIZED 640 480] =
        some (640, 480) ∧
    ∃ s', frame (fun _ _ => true) (3.14159265358979323846 : ℚ) (fun x => x) (fun x => x) 60
        (startState 3.14159265358979323846 800 600)
        [SDL_Event.window SDL_WINDOWEVENT_RESIZED 1024 768,
          SDL_Event.keydown SDLK_UP, SDL_Event.window SDL_WINDOWEVENT_RESIZED 640 480]
        (1 / 60) = some s' ∧
      s'.width = 640 ∧ s'.height = 480 ∧
      s'.hdr_buffer_size = (640, 480) ∧ s'.hdr_rbo_size = (640, 480) := by
  have h := pollEvents_resize (fun _ _ => true) (3.14159265358979323846 : ℚ)
    (fun x => x) (fun x => x) 60 (startState 3.14159265358979323846 800 600)
    [SDL_Event.window SDL_WINDOWEVENT_RESIZED 1024 768,
      SDL_Event.keydown SDLK_UP, SDL_Event.window SDL_WINDOWEVENT_RESIZED 640 480]
    (1 / 60) 640 480 rfl
  obtain ⟨s', hs'⟩ := h.2.1 (fun _ _ => rfl)
  obtain ⟨h1, h2, h3, h4, -⟩ := h.2.2.1 s' hs'
  exact ⟨rfl, s', hs', h1, h2, h3, h4⟩

theorem reallocCallsAll_no_draw (ds : List (Int × Int)) :
    ∀ c ∈ (reallocCallsAll ds : List (Call K)), c.isDrawOrPresent = false := by
  induction ds with
  | nil => intro c hc; simp [reallocCallsAll] at hc
  | cons d rest ih =>
    intro c hc
    simp only [reallocCallsAll, List.mem_append] at hc
    rcases hc with hc | hc
    · simp only [reallocCalls, List.mem_cons, List.mem_singleton, List.not_mem_nil,
        or_false] at hc
      rcases hc with rfl | rfl | rfl | rfl <;> rfl
    · exact ih c hc

/-- C10, as the claim states it, fails: from the start state (not paused, no key held,
window 800 by 600) a frame whose queue is a quit event followed by a press of the space
bar, a press of the up arrow and a resize to 1024 by 768 ends with the pause flag set,
the up arrow held, and window and storage at 1024 by 768: the events after the quit
event were applied. -/
theorem frame_quit_applies_later_events :
    (frame (fun _ _ => true) (3.14159265358979323846 : ℚ) (fun x => x) (fun x => x) 60
        (startState 3.14159265358979323846 800 600)
        [SDL_Event.quit, SDL_Event.keydown SDLK_SPACE, SDL_Event.keydown SDLK_UP,
          SDL_Event.window SDL_WINDOWEVENT_RESIZED 1024 768] (1 / 60)).map
      (fun s => (s.paused, s.button_down SDLK_UP, s.width, s.height, s.hdr_buffer_size)) =
        some (true, true, 1024, 768, (1024, 768)) ∧
    (startState (3.14159265358979323846 : ℚ) 800 600).paused = false ∧
    (startState (3.14159265358979323846 : ℚ) 800 600).button_down SDLK_UP = false ∧
    (startState (3.14159265358979323846 : ℚ) 800 600).width = 800 ∧
    (startState (3.14159265358979323846 : ℚ) 800 600).height = 600 ∧
    (startState (3.14159265358979323846 : ℚ) 800 600).hdr_buffer_size = (0, 0) :=
  ⟨rfl, rfl, rfl, rfl, rfl, rfl⟩

/-- C10, amended: when the events drained in a frame contain a quit event, the drain
still applies every other event of the queue, those after the quit event included (the
result is that of draining the queue without its quit events, with `running` cleared);
then the loop is left: the frame returns the drained state, in which accumulated time
and camera distance, pitch and yaw are those on entry and to whose log only the calls
of the reallocations were added, no draw and no present; no further frame runs. -/
theorem frame_quit (complete : Int × Int → Int × Int → Bool) (M_PI : K)
    (cos sin : K → K) (count : Nat) (s : State K) (events : List SDL_Event) (dt : K)
    (hq : SDL_Event.quit ∈ events) :
    frame complete M_PI cos sin count s events dt = pollEvents complete s events ∧
    pollEvents complete s events =
      (pollEvents complete s (events.filter (fun e => decide (e ≠ SDL_Event.quit)))).map
        State.stop ∧
    ((∀ d ∈ resizes events, complete d d = true) →
      ∃ s', frame complete M_PI cos sin count s events dt = some s') ∧
    (∀ s', frame complete M_PI cos sin count s events dt = some s' →
      s'.running = false ∧ s'.time = s.time ∧
      s'.camera_distance = s.camera_distance ∧ s'.view_angle = s.view_angle ∧
      s'.camera_rotation = s.camera_rotation ∧
      s'.calls = s.calls ++ reallocCallsAll (resizes events) ∧
      (∀ c ∈ (reallocCallsAll (resizes events) : List (Call K)),
        c.isDrawOrPresent = false)) ∧
    (∀ rest : List (List SDL_Event × K),
      runFrames complete M_PI cos sin count s ((events, dt) :: rest) =
        frame complete M_PI cos sin count s events dt) := by
  have hrun : ∀ s1, pollEvents complete s events = some s1 → s1.running = false := by
    intro s1 h1
    rw [(pollEvents_spec complete events s s1 h1).2.2.2.2.2.2.2]
    simp [hq]
  have hframe : frame complete M_PI cos sin count s events dt =
      pollEvents complete s events := by
    cases h1 : pollEvents complete s events with
    | none => simp [frame, h1]
    | some s1 =>
      rw [frame_of_pollEvents complete M_PI cos sin count s s1 events dt h1]
      simp [hrun s1 h1]
  refine ⟨hframe, pollEvents_quit complete events s hq, ?_, ?_, ?_⟩
  · intro hall
    rw [hframe]
    exact pollEvents_some complete events s hall
  · intro s' h
    rw [hframe] at h
    obtain ⟨a1, a2, a3, a4, a5, -⟩ := pollEvents_spec complete events s s' h
    exact ⟨hrun s' h, a1, a2, a3, a4, a5, reallocCallsAll_no_draw _⟩
  · intro rest
    cases h1 : pollEvents complete s events with
    | none => simp [runFrames, hframe, h1]
    | some s1 => simp [runFrames, hframe, h1, hrun s1 h1]

/-- The statement of `frame_quit` over the rationals at a queue that starts with a quit
event: the frame returns, with `running` cleared, the time
still 0, the distance still 2.5, and a log of the four calls of one reallocation. -/
theorem frame_quit_witness :
    SDL_Event.quit ∈ [SDL_Event.quit, SDL_Event.keydown SDLK_SPACE,
      SDL_Event.keydown SDLK_UP, SDL_Event.window SDL_WINDOWEVENT_RESIZED 1024 768] ∧
    ∃ s', frame (fun _ _ => true) (3.14159265358979323846 : ℚ) (fun x => x) (fun x => x) 60
        (startState 3.14159265358979323846 800 600)
        [SDL_Event.quit, SDL_Event.keydown SDLK_SPACE, SDL_Event.keydown SDLK_UP,
          SDL_Event.window SDL_WINDOWEVENT_RESIZED 1024 768] (1 / 60) = some s' ∧
      s'.running = false ∧ s'.time = 0 ∧ s'.camera_distance = 2.5 ∧
      s'.calls = reallocCalls (1024, 768) := by
  have hmem : SDL_Event.quit ∈ [SDL_Event.quit, SDL_Event.keydown SDLK_SPACE,
      SDL_Event.keydown SDLK_UP, SDL_Event.window SDL_WINDOWEVENT_RESIZED 1024 768] :=
    List.mem_cons_self _ _
  have h := frame_quit (fun _ _ => true) (3.14159265358979323846 : ℚ)
    (fun x => x) (fun x => x) 60 (startState 3.14159265358979323846 800 600)
    [SDL_Event.quit, SDL_Event.keydown SDLK_SPACE, SDL_Event.keydown SDLK_UP,
      SDL_Event.window SDL_WINDOWEVENT_RESIZED 1024 768] (1 / 60) hmem
  obtain ⟨s', hs'⟩ := h.2.2.1 (fun _ _ => rfl)
  obtain ⟨h1, h2, h3, -, -, h6, -⟩ := h.2.2.2.1 s' hs'
  exact ⟨hmem, s', hs', h1, h2, h3, h6⟩

end Frame

end Earth

/-! ## Winding -/

namespace Earth

section Winding

variable {K : Type} [LinearOrderedField K]

theorem Vec3.triple_mulScalar (a b c : Vec3 K) (r s t : K) :
    Vec3.triple (Vec3.mulScalar a r) (Vec3.mulScalar b s) (Vec3.mulScalar c t) =
      Vec3.triple a b c * (r * s * t) := by
  simp only [Vec3.triple, Vec3.dot, Vec3.cross, Vec3.mulScalar]; ring

theorem Vec3.triple_mulScalar_12 (a b c : Vec3 K) (s t : K) :
    Vec3.triple a (Vec3.mulScalar b s) (Vec3.mulScalar c t) =
      Vec3.triple a b c * (s * t) := by
  simp only [Vec3.triple, Vec3.dot, Vec3.cross, Vec3.mulScalar]; ring

theorem Vec3.triple_mulScalar_02 (a b c : Vec3 K) (r t : K) :
    Vec3.triple (Vec3.mulScalar a r) b (Vec3.mulScalar c t) =
      Vec3.triple a b c * (r * t) := by
  simp only [Vec3.triple, Vec3.dot, Vec3.cross, Vec3.mulScalar]; ring

theorem Vec3.triple_mulScalar_01 (a b c : Vec3 K) (r s : K) :
    Vec3.triple (Vec3.mulScalar a r) (Vec3.mulScalar b s) c =
      Vec3.triple a b c * (r * s) := by
  simp only [Vec3.triple, Vec3.dot, Vec3.cross, Vec3.mulScalar]; ring

/-- The four triples of half sums that the subdivision normalises all have a quarter of
the triple product of the face. -/
theorem Vec3.triple_half_corner0 (a b c : Vec3 K) :
    Vec3.triple a (Vec3.divScalar (Vec3.add a b) 2) (Vec3.divScalar (Vec3.add a c) 2) =
      Vec3.triple a b c / 4 := by
  simp only [Vec3.triple, Vec3.dot, Vec3.cross, Vec3.divScalar, Vec3.add]; ring

theorem Vec3.triple_half_corner1 (a b c : Vec3 K) :
    Vec3.triple (Vec3.divScalar (Vec3.add a b) 2) b (Vec3.divScalar (Vec3.add b c) 2) =
      Vec3.triple a b c / 4 := by
  simp only [Vec3.triple, Vec3.dot, Vec3.cross, Vec3.divScalar, Vec3.add]; ring

theorem Vec3.triple_half_corner2 (a b c : Vec3 K) :
    Vec3.triple (Vec3.divScalar (Vec3.add a c) 2) (Vec3.divScalar (Vec3.add b c) 2) c =
      Vec3.triple a b c / 4 := by
  simp only [Vec3.triple, Vec3.dot, Vec3.cross, Vec3.divScalar, Vec3.add]; ring

theorem Vec3.triple_half_centre (a b c : Vec3 K) :
    Vec3.triple (Vec3.divScalar (Vec3.add a b) 2) (Vec3.divScalar (Vec3.add b c) 2)
        (Vec3.divScalar (Vec3.add a c) 2) =
      Vec3.triple a b c / 4 := by
  simp only [Vec3.triple, Vec3.dot, Vec3.cross, Vec3.divScalar, Vec3.add]; ring

theorem Vec3.dot_self_nonneg (a : Vec3 K) : 0 ≤ Vec3.dot a a := by
  simp only [Vec3.dot]
  nlinarith [mul_self_nonneg a.x, mul_self_nonneg a.y, mul_self_nonneg a.z]

theorem Vec3.eq_zero_of_dot_self (a : Vec3 K) (h : Vec3.dot a a = 0) :
    a.x = 0 ∧ a.y = 0 ∧ a.z = 0 := by
  simp only [Vec3.dot] at h
  have hx := mul_self_nonneg a.x
  have hy := mul_self_nonneg a.y
  have hz := mul_self_nonneg a.z
  refine ⟨?_, ?_, ?_⟩
  · exact mul_self_eq_zero.1 (le_antisymm (by linarith) hx)
  · exact mul_self_eq_zero.1 (le_antisymm (by linarith) hy)
  · exact mul_self_eq_zero.1 (le_antisymm (by linarith) hz)

/-- When the half sum of two vectors has scalar square zero, the second is the
opposite of the first. -/
theorem Vec3.neg_of_half_sum_sq_zero (a b : Vec3 K)
    (h : Vec3.dot (Vec3.divScalar (Vec3.add a b) 2) (Vec3.divScalar (Vec3.add a b) 2) = 0) :
    b.x = -a.x ∧ b.y = -a.y ∧ b.z = -a.z := by
  obtain ⟨hx, hy, hz⟩ := Vec3.eq_zero_of_dot_self _ h
  simp only [Vec3.divScalar, Vec3.add] at hx hy hz
  have h2 : (2 : K) ≠ 0 := two_ne_zero
  have hx' := (div_eq_zero_iff.1 hx).resolve_right h2
  have hy' := (div_eq_zero_iff.1 hy).resolve_right h2
  have hz' := (div_eq_zero_iff.1 hz).resolve_right h2
  exact ⟨by linarith, by linarith, by linarith⟩

theorem Vec3.half_sum_sq_pos_01 (a b c : Vec3 K) (h : Vec3.triple a b c ≠ 0) :
    0 < Vec3.dot (Vec3.divScalar (Vec3.add a b) 2) (Vec3.divScalar (Vec3.add a b) 2) := by
  rcases (Vec3.dot_self_nonneg (Vec3.divScalar (Vec3.add a b) 2)).lt_or_eq with hpos | hzero
  · exact hpos
  · obtain ⟨hx, hy, hz⟩ := Vec3.neg_of_half_sum_sq_zero a b hzero.symm
    refine absurd ?_ h
    simp only [Vec3.triple, Vec3.dot, Vec3.cross, hx, hy, hz]; ring

theorem Vec3.half_sum_sq_pos_12 (a b c : Vec3 K) (h : Vec3.triple a b c ≠ 0) :
    0 < Vec3.dot (Vec3.divScalar (Vec3.add b c) 2) (Vec3.divScalar (Vec3.add b c) 2) := by
  rcases (Vec3.dot_self_nonneg (Vec3.divScalar (Vec3.add b c) 2)).lt_or_eq with hpos | hzero
  · exact hpos
  · obtain ⟨hx, hy, hz⟩ := Vec3.neg_of_half_sum_sq_zero b c hzero.symm
    refine absurd ?_ h
    simp only [Vec3.triple, Vec3.dot, Vec3.cross, hx, hy, hz]; ring

theorem Vec3.half_sum_sq_pos_02 (a b c : Vec3 K) (h : Vec3.triple a b c ≠ 0) :
    0 < Vec3.dot (Vec3.divScalar (Vec3.add a c) 2) (Vec3.divScalar (Vec3.add a c) 2) := by
  rcases (Vec3.dot_self_nonneg (Vec3.divScalar (Vec3.add a c) 2)).lt_or_eq with hpos | hzero
  · exact hpos
  · obtain ⟨hx, hy, hz⟩ := Vec3.neg_of_half_sum_sq_zero a c hzero.symm
    refine absurd ?_ h
    simp only [Vec3.triple, Vec3.dot, Vec3.cross, hx, hy, hz]; ring

theorem inv_sqrt_pos (sqrt : K → K) (hmul : ∀ x, 0 ≤ x → sqrt x * sqrt x = x)
    (hnonneg : ∀ x, 0 ≤ sqrt x) (x : K) (hx : 0 < x) : 0 < 1 / sqrt x :=
  one_div_pos.2 (sqrt_pos_of_pos sqrt hmul hnonneg x hx)

/-- The four faces that replace a face of positive triple product have positive triple
product. -/
theorem subdivideFace_winding (sqrt : K → K) (hmul : ∀ x, 0 ≤ x → sqrt x * sqrt x = x)
    (hnonneg : ∀ x, 0 ≤ sqrt x) (f : Face K) (hf : 0 < f.winding) :
    ∀ g ∈ subdivideFace sqrt f, 0 < g.winding := by
  have hw : 0 < Vec3.triple f.v0 f.v1 f.v2 := hf
  have s01 := inv_sqrt_pos sqrt hmul hnonneg _ (Vec3.half_sum_sq_pos_01 f.v0 f.v1 f.v2 hw.ne')
  have s12 := inv_sqrt_pos sqrt hmul hnonneg _ (Vec3.half_sum_sq_pos_12 f.v0 f.v1 f.v2 hw.ne')
  have s02 := inv_sqrt_pos sqrt hmul hnonneg _ (Vec3.half_sum_sq_pos_02 f.v0 f.v1 f.v2 hw.ne')
  have hq : 0 < Vec3.triple f.v0 f.v1 f.v2 / 4 := by positivity
  intro g hg
  simp only [subdivideFace, List.mem_cons, List.mem_singleton, List.not_mem_nil,
    or_false] at hg
  rcases hg with rfl | rfl | rfl | rfl
  · simp only [Face.winding, midpoint, Vec3.normalize]
    rw [Vec3.triple_mulScalar_12, Vec3.triple_half_corner0]
    exact mul_pos hq (mul_pos s01 s02)
  · simp only [Face.winding, midpoint, Vec3.normalize]
    rw [Vec3.triple_mulScalar_02, Vec3.triple_half_corner1]
    exact mul_pos hq (mul_pos s01 s12)
  · simp only [Face.winding, midpoint, Vec3.normalize]
    rw [Vec3.triple_mulScalar_01, Vec3.triple_half_corner2]
    exact mul_pos hq (mul_pos s02 s12)
  · simp only [Face.winding, midpoint, Vec3.normalize]
    rw [Vec3.triple_mulScalar, Vec3.triple_half_centre]
    exact mul_pos hq (mul_pos (mul_pos s01 s12) s02)

theorem subdivide_winding (sqrt : K → K) (hmul : ∀ x, 0 ≤ x → sqrt x * sqrt x = x)
    (hnonneg : ∀ x, 0 ≤ sqrt x) (fs : List (Face K)) (hfs : ∀ f ∈ fs, 0 < f.winding) :
    ∀ g ∈ subdivide sqrt fs, 0 < g.winding := by
  intro g hg
  obtain ⟨f, hf, hgf⟩ := (mem_subdivide sqrt fs g).1 hg
  exact subdivideFace_winding sqrt hmul hnonneg f (hfs f hf) g hgf

/-- The twenty triples of table entries selected by the index list have positive
triple product. -/
theorem rawFaces_winding :
    ∀ f ∈ buildFaces (icosahedronVertices : List (Vec3 K)) indices, 0 < f.winding := by
  simp only [buildFaces, indices, icosahedronVertices, vertexAt, List.getD_cons_zero,
    List.getD_cons_succ, List.forall_mem_cons]
  refine ⟨?_, ?_, ?_, ?_, ?_, ?_, ?_, ?_, ?_, ?_, ?_, ?_, ?_, ?_, ?_, ?_, ?_, ?_, ?_, ?_,
    ?_⟩
  all_goals first
    | (intro f hf; exact absurd hf (List.not_mem_nil f))
    | (simp only [Face.winding, Vec3.triple, Vec3.dot, Vec3.cross]; norm_num)

theorem baseFaces_winding (sqrt : K → K) (hmul : ∀ x, 0 ≤ x → sqrt x * sqrt x = x)
    (hnonneg : ∀ x, 0 ≤ sqrt x) : ∀ f ∈ baseFaces sqrt, 0 < f.winding := by
  intro f hf
  rw [baseFaces_eq_map, List.mem_map] at hf
  obtain ⟨r, hr, rfl⟩ := hf
  obtain ⟨h0, h1, h2, -⟩ := rawFaces_rawProper r hr
  have hw : 0 < Vec3.triple r.v0 r.v1 r.v2 := rawFaces_winding r hr
  simp only [Face.winding, Vec3.normalize]
  rw [Vec3.triple_mulScalar]
  exact mul_pos hw (mul_pos (mul_pos (inv_sqrt_pos sqrt hmul hnonneg _ h0)
    (inv_sqrt_pos sqrt hmul hnonneg _ h1)) (inv_sqrt_pos sqrt hmul hnonneg _ h2))

theorem sphereFaces_winding (sqrt : K → K) (hmul : ∀ x, 0 ≤ x → sqrt x * sqrt x = x)
    (hnonneg : ∀ x, 0 ≤ sqrt x) (n : Nat) : ∀ f ∈ sphereFaces sqrt n, 0 < f.winding := by
  induction n with
  | zero => exact baseFaces_winding sqrt hmul hnonneg
  | succ n ih =>
    rw [sphereFaces_succ]
    exact subdivide_winding sqrt hmul hnonneg _ ih

/-- C11: with exact arithmetic and a square root, for every subdivision count every
triangle `(v0, v1, v2)` of the output of `generate_sphere` has strictly positive scalar
triple product `v0 · (v1 × v2)`; so have the twenty base faces, already before the
table is normalised; and whenever a face has positive triple product, each of the four
faces that replace it in a subdivision step has. -/
theorem generate_sphere_winding (sqrt : K → K)
    (hmul : ∀ x, 0 ≤ x → sqrt x * sqrt x = x) (hnonneg : ∀ x, 0 ≤ sqrt x)
    (vertices : List (Vec3 K)) (n : Nat) :
    (∀ (k : Nat) (f : Face K), triangle (generate_sphere sqrt vertices n) k = some f →
      0 < Vec3.triple f.v0 f.v1 f.v2) ∧
    (∀ f ∈ toFaces (generate_sphere sqrt vertices n), 0 < f.winding) ∧
    (∀ f ∈ baseFaces sqrt, 0 < f.winding) ∧
    (∀ f ∈ buildFaces (icosahedronVertices : List (Vec3 K)) indices, 0 < f.winding) ∧
    (∀ f : Face K, 0 < f.winding → ∀ g ∈ subdivideFace sqrt f, 0 < g.winding) := by
  have hall := sphereFaces_winding sqrt hmul hnonneg n
  refine ⟨?_, ?_, baseFaces_winding sqrt hmul hnonneg, rawFaces_winding,
    subdivideFace_winding sqrt hmul hnonneg⟩
  · intro k f hk
    rw [generate_sphere, triangle_flatten] at hk
    exact hall f (List.get?_mem hk)
  · rw [generate_sphere, toFaces_flatten]
    exact hall

/-- The statement of `generate_sphere_winding` over the real numbers with the real
square root, for two subdivisions. -/
theorem generate_sphere_winding_witness :
    ((∀ x : ℝ, 0 ≤ x → Real.sqrt x * Real.sqrt x = x) ∧ (∀ x : ℝ, 0 ≤ Real.sqrt x)) ∧
    ((∀ (k : Nat) (f : Face ℝ), triangle (generate_sphere Real.sqrt [] 2) k = some f →
      0 < Vec3.triple f.v0 f.v1 f.v2) ∧
    (∀ f ∈ toFaces (generate_sphere Real.sqrt [] 2), 0 < f.winding) ∧
    (∀ f ∈ baseFaces Real.sqrt, 0 < f.winding) ∧
    (∀ f ∈ buildFaces (icosahedronVertices : List (Vec3 ℝ)) indices, 0 < f.winding) ∧
    (∀ f : Face ℝ, 0 < f.winding → ∀ g ∈ subdivideFace Real.sqrt f, 0 < g.winding)) :=
  ⟨⟨fun _ hx => Real.mul_self_sqrt hx, Real.sqrt_nonneg⟩,
    generate_sphere_winding Real.sqrt (fun _ hx => Real.mul_self_sqrt hx)
      Real.sqrt_nonneg [] 2⟩

end Winding

end Earth

/-! ## The camera and the surface in exact arithmetic -/

namespace Earth

section Surface

variable {K : Type} [LinearOrderedField K] [FloorRing K]

theorem update_camera_distance (s : State K) (dt : K) :
    (update s dt).camera_distance =
      if s.button_down SDLK_DOWN then
        (if s.button_down SDLK_UP then
          s.camera_distance - min (min (s.camera_distance - 1) 3) 3 * dt
         else s.camera_distance) + min (min (s.camera_distance - 1) 3) 3 * dt
      else
        (if s.button_down SDLK_UP then
          s.camera_distance - min (min (s.camera_distance - 1) 3) 3 * dt
         else s.camera_distance) := rfl

theorem update_distance_gt_one_step (s : State K) (dt : K) (hd : 1 < s.camera_distance)
    (h0 : 0 ≤ dt) (h1 : dt < 1) : 1 < (update s dt).camera_distance := by
  have hc0 : 0 < min (min (s.camera_distance - 1) 3) 3 := by
    refine lt_min (lt_min ?_ ?_) ?_ <;> linarith
  have hc1 : min (min (s.camera_distance - 1) 3) 3 ≤ s.camera_distance - 1 :=
    (min_le_left _ _).trans (min_le_left _ _)
  have hlt : min (min (s.camera_distance - 1) 3) 3 * dt <
      min (min (s.camera_distance - 1) 3) 3 := mul_lt_of_lt_one_right hc0 h1
  have hge : 0 ≤ min (min (s.camera_distance - 1) 3) 3 * dt := mul_nonneg hc0.le h0
  rw [update_camera_distance]
  cases s.button_down SDLK_DOWN <;> cases s.button_down SDLK_UP <;>
    simp only [Bool.false_eq_true, if_false, if_true] <;> linarith

theorem foldl_update_distance_gt_one (dts : List K) (s : State K)
    (hd : 1 < s.camera_distance) (hdts : ∀ t ∈ dts, 0 ≤ t ∧ t < 1) :
    1 < (dts.foldl update s).camera_distance := by
  induction dts generalizing s with
  | nil => exact hd
  | cons dt rest ih =>
    have hdt := hdts dt (List.mem_cons_self _ _)
    exact ih (update s dt) (update_distance_gt_one_step s dt hd hdt.1 hdt.2)
      (fun t ht => hdts t (List.mem_cons_of_mem _ ht))

/-- With exact arithmetic, without the rounding of `float` operations: from a camera
distance above 1, for every frame time `0 ≤ dt < 1` and every held-key set, the update
yields a camera distance still above 1, so the speed `min (distance - 1) 3` stays
positive; the same holds after any number of such updates and after a whole frame,
whatever events it drains; the distance 2.5 of the start state is above 1; and with
only the up key held, from distance 2.5 a frame time of 1 brings the distance to
exactly 1. -/
theorem update_distance_gt_one (complete : Int × Int → Int × Int → Bool) (M_PI : K)
    (cos sin : K → K) (count : Nat) (s : State K) (dt : K)
    (hd : 1 < s.camera_distance) (h0 : 0 ≤ dt) (h1 : dt < 1) :
    1 < (update s dt).camera_distance ∧
    0 < min ((update s dt).camera_distance - 1) 3 ∧
    (∀ dts : List K, (∀ t ∈ dts, 0 ≤ t ∧ t < 1) →
      1 < (dts.foldl update s).camera_distance) ∧
    (∀ (events : List SDL_Event) (s' : State K),
      frame complete M_PI cos sin count s events dt = some s' →
      1 < s'.camera_distance) ∧
    (∀ (pi : K) (width height : Int),
      (startState pi width height).camera_distance = 2.5 ∧
      1 < (startState pi width height).camera_distance ∧
      ∀ s0, initialState complete pi width height = some s0 → 1 < s0.camera_distance) ∧
    (∃ (t : State K) (dt1 : K), 1 < t.camera_distance ∧ 1 ≤ dt1 ∧
      t.button_down = onlyHeld SDLK_UP ∧ (update t dt1).camera_distance = 1 ∧
      ¬ 1 < (update t dt1).camera_distance) := by
  have hstep := update_distance_gt_one_step s dt hd h0 h1
  have h25 : (1 : K) < 2.5 := by norm_num
  refine ⟨hstep, ?_, fun dts hdts => foldl_update_distance_gt_one dts s hd hdts, ?_, ?_, ?_⟩
  · refine lt_min ?_ ?_ <;> linarith
  · intro events s' h
    cases hp : pollEvents complete s events with
    | none => simp [frame, hp] at h
    | some s1 =>
      have hdist := (pollEvents_spec complete events s s1 hp).2.1
      have hd1 : 1 < s1.camera_distance := by rw [hdist]; exact hd
      rw [frame_of_pollEvents complete M_PI cos sin count s s1 events dt hp] at h
      split at h
      · simp only [Option.some.injEq] at h; subst h; exact hd1
      · simp only [Option.some.injEq] at h; subst h
        exact update_distance_gt_one_step s1 dt hd1 h0 h1
  · intro pi width height
    refine ⟨rfl, h25, ?_⟩
    intro s0 hs0
    rw [initialState, resize_hdr_buffers_eq] at hs0
    split at hs0
    · simp only [Option.some.injEq] at hs0; subst hs0; exact h25
    · exact absurd hs0 (by simp)
  · have hup : (update { startState (0 : K) 0 0 with
        button_down := onlyHeld SDLK_UP } 1).camera_distance = 1 := by
      rw [update_camera_distance]
      have hU : onlyHeld SDLK_UP SDLK_UP = true := onlyHeld_self _
      have hD : onlyHeld SDLK_UP SDLK_DOWN = false := onlyHeld_ne _ _ (by decide)
      simp only [startState, hU, hD, if_true, Bool.false_eq_true, if_false]
      have hm : min ((2.5 : K) - 1) 3 = 1.5 := by
        rw [min_eq_left] <;> norm_num
      rw [hm, min_eq_left (by norm_num)]
      norm_num
    refine ⟨{ startState (0 : K) 0 0 with button_down := onlyHeld SDLK_UP }, 1, h25,
      le_rfl, rfl, hup, ?_⟩
    rw [hup]
    exact lt_irrefl _

/-- The statement of `update_distance_gt_one` at the rational state `heldState SDLK_UP`,
whose distance is 2.5, for a frame of half a second: the new distance is `7/4`. -/
theorem update_distance_gt_one_witness :
    ((1 : ℚ) < (heldState SDLK_UP).camera_distance ∧ (0 : ℚ) ≤ 1 / 2 ∧ (1 / 2 : ℚ) < 1) ∧
    (1 < (update (heldState SDLK_UP) (1 / 2)).camera_distance ∧
      0 < min ((update (heldState SDLK_UP) (1 / 2)).camera_distance - 1) 3) ∧
    (update (heldState SDLK_UP) (1 / 2)).camera_distance = 7 / 4 := by
  have hd : (1 : ℚ) < (heldState SDLK_UP).camera_distance := by
    show (1 : ℚ) < 2.5
    norm_num
  have h := update_distance_gt_one (fun _ _ => true) (3.14159265358979323846 : ℚ)
    (fun x => x) (fun x => x) 60 (heldState SDLK_UP) (1 / 2) hd (by norm_num) (by norm_num)
  refine ⟨⟨hd, by norm_num, by norm_num⟩, ⟨h.1, h.2.1⟩, ?_⟩
  have hU : (heldState SDLK_UP).button_down SDLK_UP = true :=
    show onlyHeld SDLK_UP SDLK_UP = true from onlyHeld_self SDLK_UP
  have hD : (heldState SDLK_UP).button_down SDLK_DOWN = false :=
    show onlyHeld SDLK_UP SDLK_DOWN = false from
      onlyHeld_ne SDLK_UP SDLK_DOWN (by decide)
  rw [update_camera_distance, hU, hD]
  show (2.5 : ℚ) - min (min (2.5 - 1) 3) 3 * (1 / 2) = 7 / 4
  have hm : min ((2.5 : ℚ) - 1) 3 = 1.5 := by
    rw [min_eq_left] <;> norm_num
  rw [hm, min_eq_left (by norm_num)]
  norm_num

end Surface

end Earth

/-! ## Rounding to binary32 -/

namespace Earth

section Rounding

end Rounding

end Earth

/-! ## The camera distance in `float` arithmetic -/

namespace Earth

section FloatCamera

theorem update_f32_button_down (s : State ℚ) (dt : ℚ) :
    (update_f32 s dt).button_down = s.button_down := rfl

end FloatCamera

end Earth

/-! ## The camera and the surface in `float` arithmetic -/

namespace Earth

section FloatSurface

end FloatSurface

end Earth
